import Mathlib

/-
Verification development for the test-impact analysis tool
(src/git.py, src/test_analyzer.py, src/analyze_direct_changes.py,
src/test_impact_analyzer.py).  File contents and command outputs are
modelled as `List Char` / `String`; the external `git` subprocess layer is
modelled as an oracle `GitRepo.run : List String -> Except String String`
mapping an argument vector to either the command's stdout (`Except.ok`) or
a non-zero-exit failure (`Except.error`, Python's CalledProcessError).
-/

/- Python `str.split('\n')`: split on every newline, keeping empty pieces. -/
def splitLinesAux : List Char → List Char → List (List Char)
  | [], acc => [acc.reverse]
  | c :: rest, acc =>
    if c = '\n' then acc.reverse :: splitLinesAux rest []
    else splitLinesAux rest (c :: acc)

def splitLines (s : List Char) : List (List Char) :=
  splitLinesAux s []

/- Inverse of `splitLines`: `'\n'.join(lines)`. -/
def joinLines : List (List Char) → List Char
  | [] => []
  | [l] => l
  | l :: l2 :: rest => l ++ '\n' :: joinLines (l2 :: rest)

/- Python `str.strip()` (whitespace from both ends). -/
def trimChars (s : List Char) : List Char :=
  ((s.dropWhile Char.isWhitespace).reverse.dropWhile Char.isWhitespace).reverse

/- Digits of a decimal literal to a natural number (`int(...)` on a `\d+` match). -/
def digitsToNat (ds : List Char) : Nat :=
  ds.foldl (fun a c => 10 * a + (c.toNat - '0'.toNat)) 0

/- Consume an expected literal at the head of the input. -/
def afterLit (p s : List Char) : Option (List Char) :=
  if p.isPrefixOf s then some (s.drop p.length) else none

/- Greedy `\d+`: one or more digits and the remaining input. -/
def parseNat1 (s : List Char) : Option (Nat × List Char) :=
  let ds := s.takeWhile Char.isDigit
  if ds.isEmpty then none else some (digitsToNat ds, s.drop ds.length)

/- Optional `,?`. -/
def skipOptComma (s : List Char) : List Char :=
  match s with
  | ',' :: r => r
  | _ => s

/- Match of `re.search(r'@@ -\d+,?\d* \+(\d+),?\d* @@', line)` anchored at the
current position; returns the captured new-start number (src/git.py line 92). -/
def matchHunkAt (s : List Char) : Option Int := do
  let s ← afterLit "@@ -".data s
  let (_, s) ← parseNat1 s
  let s := (skipOptComma s).dropWhile Char.isDigit
  let s ← afterLit " +".data s
  let (n, s) ← parseNat1 s
  let s := (skipOptComma s).dropWhile Char.isDigit
  let _ ← afterLit " @@".data s
  pure (n : Int)

/- Leftmost-position search for the hunk-header pattern. -/
def searchHunk : List Char → Option Int
  | [] => matchHunkAt []
  | c :: rest => (matchHunkAt (c :: rest)).orElse fun _ => searchHunk rest

/- Line-by-line state machine of `GitRepo.get_changed_lines`
(src/git.py lines 88-106): cursor starts at 0; a hunk header resets it to the
captured new-start (unchanged if the header fails to parse); `+` lines record
the cursor and advance it; `-` lines record cursor - 1 without advancing;
other lines (context) advance the cursor; `+++`/`---` lines do nothing. -/
def diffLoop : List (List Char) → Int → Finset Int → Finset Int
  | [], _, acc => acc
  | l :: rest, cur, acc =>
    if "@@".data.isPrefixOf l then
      match searchHunk l with
      | some n => diffLoop rest n acc
      | none => diffLoop rest cur acc
    else if "+".data.isPrefixOf l && !("+++".data.isPrefixOf l) then
      diffLoop rest (cur + 1) (insert cur acc)
    else if "-".data.isPrefixOf l && !("---".data.isPrefixOf l) then
      diffLoop rest cur (insert (cur - 1) acc)
    else if !("-".data.isPrefixOf l) && !("+".data.isPrefixOf l) then
      diffLoop rest (cur + 1) acc
    else
      diffLoop rest cur acc

/- The diff-to-changed-lines mapper: body of `GitRepo.get_changed_lines`
applied to a unified diff text (src/git.py lines 82-107). -/
def diffChangedLines (diff : String) : Finset Int :=
  diffLoop (splitLines diff.data) 0 ∅

/- External collaborator: one git subprocess invocation
(`subprocess.run(cmd, cwd=repo_path, capture_output=True, text=True, check=True)`),
either stdout on exit 0 or a CalledProcessError on non-zero exit. -/
structure GitRepo where
  run : List String → Except String String

/- Split a name-status line at its first tab; `none` models the uncaught
ValueError Python raises when `line.split('\t', 1)` yields a single piece. -/
def splitFirstTab (l : List Char) : Option (List Char × List Char) :=
  match l.splitOn '\t' with
  | [] => none
  | [_] => none
  | a :: rest => some (a, List.intercalate ['\t'] rest)

/- Parse the stripped stdout of `git diff --name-status`: skip empty lines,
split each remaining line at the first tab into (status, path), both stripped
(src/git.py lines 25-30). -/
def parseNameStatus : List (List Char) → Option (List (String × String))
  | [] => some []
  | l :: rest =>
    if l.isEmpty then parseNameStatus rest
    else
      match splitFirstTab l with
      | none => none
      | some (a, b) =>
        (parseNameStatus rest).map
          (fun fs => (String.mk (trimChars a), String.mk (trimChars b)) :: fs)

/- `GitRepo.get_commit_files` (src/git.py lines 13-33): on subprocess failure
return the empty list; otherwise parse the name-status output.  The outer
`Option` is `none` exactly when the (uncaught) tab-split ValueError would fire. -/
def get_commit_files (r : GitRepo) (commit_sha : String) : Option (List (String × String)) :=
  match r.run ["git", "diff", "--name-status", commit_sha ++ "^.." ++ commit_sha] with
  | .error _ => some []
  | .ok out => parseNameStatus (splitLines (trimChars out.data))

/- `GitRepo.get_file_content` (src/git.py lines 35-48): empty string on failure. -/
def get_file_content (r : GitRepo) (commit_sha file_path : String) : String :=
  match r.run ["git", "show", commit_sha ++ ":" ++ file_path] with
  | .error _ => ""
  | .ok out => out

/- `GitRepo.get_parent_commit` (src/git.py lines 50-63): stripped stdout, empty on failure. -/
def get_parent_commit (r : GitRepo) (commit_sha : String) : String :=
  match r.run ["git", "rev-parse", commit_sha ++ "^"] with
  | .error _ => ""
  | .ok out => String.mk (trimChars out.data)

/- `GitRepo.get_file_diff` (src/git.py lines 65-80): zero-context diff between
parent and commit, empty string on failure. -/
def get_file_diff (r : GitRepo) (commit_sha file_path : String) : String :=
  match r.run ["git", "diff", "--unified=0",
      get_parent_commit r commit_sha ++ ".." ++ commit_sha, "--", file_path] with
  | .error _ => ""
  | .ok out => out

/- `GitRepo.get_changed_lines` (src/git.py lines 82-107). -/
def get_changed_lines (r : GitRepo) (commit_sha file_path : String) : Finset Int :=
  diffChangedLines (get_file_diff r commit_sha file_path)

/- `GitRepo.get_all_test_files` (src/git.py lines 109-124): nonempty lines of
the stripped `git ls-files '*.spec.ts'` output, empty list on failure. -/
def get_all_test_files (r : GitRepo) : List String :=
  match r.run ["git", "ls-files", "*.spec.ts"] with
  | .error _ => []
  | .ok out =>
    ((splitLines (trimChars out.data)).filter (fun l => !l.isEmpty)).map String.mk

/- Characters accepted by Python's regex `\w` (ASCII fragment) and quotes. -/
def isWordChar (c : Char) : Bool := c.isAlphanum || c == '_'

def isQuoteChar (c : Char) : Bool := c == '\'' || c == '"'

/- Lazy `(.+?)` followed by `[\'"]`: at least one captured character, closed by
the first quote occurring after it. -/
def findCloseQuote : List Char → List Char → Option (List Char)
  | _, [] => none
  | acc, c :: rest =>
    if isQuoteChar c then some acc.reverse else findCloseQuote (c :: acc) rest

def lazyCapture : List Char → Option (List Char)
  | [] => none
  | c :: rest => findCloseQuote [c] rest

/- Match `callee\([\'"](.+?)[\'"]` anchored at the current position
(the two `test_patterns` of src/test_analyzer.py lines 30-33). -/
def matchCallAt (callee : List Char) (s : List Char) : Option (List Char) :=
  if (callee ++ ['(']).isPrefixOf s then
    match s.drop (callee.length + 1) with
    | q :: rest => if isQuoteChar q then lazyCapture rest else none
    | [] => none
  else none

/- `re.search`: leftmost position at which the pattern matches. -/
def searchCall (callee : List Char) : List Char → Option (List Char)
  | [] => matchCallAt callee []
  | c :: rest => (matchCallAt callee (c :: rest)).orElse fun _ => searchCall callee rest

/- Names a single line contributes in `extract_tests_with_lines`
(src/test_analyzer.py lines 44-51): the `test(...)` pattern, then the
`it(...)` pattern, in that order. -/
def testLineNames (l : List Char) : List String :=
  [searchCall "test".data l, searchCall "it".data l].filterMap
    (fun o => o.map String.mk)

/- Net brace balance of one physical line: `line.count('{') - line.count('}')`. -/
def braceDelta (l : List Char) : Int :=
  (l.count '{' : Int) - (l.count '}' : Int)

/- Loop of `TestAnalyzer._find_test_end` (src/test_analyzer.py lines 55-73):
`i` is the 1-based number of the current line; `some i` models the early
`return i + 1` (0-based), `none` models falling off the end of the file. -/
def findTestEndLoop : List (List Char) → Nat → Int → Bool → Option Nat
  | [], _, _, _ => none
  | l :: rest, i, bc, inT =>
    let bc2 := bc + braceDelta l
    if 0 < bc2 then findTestEndLoop rest (i + 1) bc2 true
    else if inT && bc2 == 0 then some i
    else findTestEndLoop rest (i + 1) bc2 inT

def find_test_end (lines : List (List Char)) (start_line : Nat) : Nat :=
  (findTestEndLoop (lines.drop (start_line - 1)) start_line 0 false).getD lines.length

/- Loop of `HelperAnalyzer._find_function_end` (src/analyze_direct_changes.py
lines 69-87), written out separately because the source duplicates the code. -/
def findFunctionEndLoop : List (List Char) → Nat → Int → Bool → Option Nat
  | [], _, _, _ => none
  | l :: rest, i, bc, inT =>
    let bc2 := bc + braceDelta l
    if 0 < bc2 then findFunctionEndLoop rest (i + 1) bc2 true
    else if inT && bc2 == 0 then some i
    else findFunctionEndLoop rest (i + 1) bc2 inT

def find_function_end (lines : List (List Char)) (start_line : Nat) : Nat :=
  (findFunctionEndLoop (lines.drop (start_line - 1)) start_line 0 false).getD lines.length

/- Name-to-span mapping recovered from a file version: a Python dict in
insertion order, here an association list with unique keys. -/
abbrev BlockDict := List (String × Nat × Nat)

/- Python dict assignment `d[k] = v`: overwrite in place if present, else append. -/
def dictInsert (m : BlockDict) (k : String) (v : Nat × Nat) : BlockDict :=
  if m.any (fun e => e.1 == k) then
    m.map (fun e => if e.1 == k then (k, v.1, v.2) else e)
  else m ++ [(k, v.1, v.2)]

/- Python dict lookup `d[k]`. -/
def dictLookup (k : String) (m : BlockDict) : Option (Nat × Nat) :=
  (m.find? (fun e => e.1 == k)).map (fun e => (e.2.1, e.2.2))

/- Shared shape of the two extraction loops (`extract_tests_with_lines` and
`extract_functions_with_lines`): walk the lines with a 1-based counter and, for
each name the line's patterns yield, assign `(i, findEnd lines i)` in the dict. -/
def extractGo (names : List Char → List String) (findEnd : List (List Char) → Nat → Nat)
    (lines : List (List Char)) : List (List Char) → Nat → BlockDict → BlockDict
  | [], _, acc => acc
  | l :: rest, i, acc =>
    extractGo names findEnd lines rest (i + 1)
      ((names l).foldl (fun a n => dictInsert a n (i, findEnd lines i)) acc)

/- `TestAnalyzer.extract_tests_with_lines` (src/test_analyzer.py lines 35-53). -/
def extract_tests_with_lines (content : List Char) : BlockDict :=
  extractGo testLineNames find_test_end (splitLines content) (splitLines content) 1 []

/- Consume `kw` followed by one-or-more whitespace (`kw\s+`); the tokens that
follow in every use are non-whitespace, so greedy whitespace needs no backtracking. -/
def skipKw (kw : List Char) (s : List Char) : Option (List Char) :=
  if kw.isPrefixOf s then
    match s.drop kw.length with
    | c :: rest =>
      if c.isWhitespace then some ((c :: rest).dropWhile Char.isWhitespace) else none
    | [] => none
  else none

/- Optional `(?:kw\s+)?`: with-`kw` is committed when it consumes, since the
alternatives start with different literal characters. -/
def optKw (kw : List Char) (s : List Char) : List Char :=
  (skipKw kw s).getD s

/- Pattern `(?:export\s+)?(?:async\s+)?function\s+(\w+)` anchored at the
current position (src/analyze_direct_changes.py line 51). -/
def matchFnDeclAt (s : List Char) : Option (List Char) :=
  match skipKw "function".data (optKw "async".data (optKw "export".data s)) with
  | none => none
  | some s3 =>
    let nm := s3.takeWhile isWordChar
    if nm.isEmpty then none else some nm

/- Shared tail of the two `const` patterns: `const\s+(\w+)\s*=\s*` with the
captured name returned along with the rest of the input. -/
def matchConstHead (s : List Char) : Option (List Char × List Char) :=
  match skipKw "const".data (optKw "export".data s) with
  | none => none
  | some s2 =>
    let nm := s2.takeWhile isWordChar
    if nm.isEmpty then none
    else
      match (s2.drop nm.length).dropWhile Char.isWhitespace with
      | '=' :: rest => some (nm, rest.dropWhile Char.isWhitespace)
      | _ => none

/- Pattern `(?:export\s+)?const\s+(\w+)\s*=\s*(?:async\s+)?\([^)]*\)\s*=>`
anchored at the current position (src/analyze_direct_changes.py line 52). -/
def matchArrowAt (s : List Char) : Option (List Char) :=
  match matchConstHead s with
  | none => none
  | some (nm, rest) =>
    match optKw "async".data rest with
    | '(' :: r2 =>
      match r2.dropWhile (fun c => !(c == ')')) with
      | ')' :: r3 =>
        match r3.dropWhile Char.isWhitespace with
        | '=' :: '>' :: _ => some nm
        | _ => none
      | _ => none
    | _ => none

/- Pattern `(?:export\s+)?const\s+(\w+)\s*=\s*(?:async\s+)?function\b`
anchored at the current position (src/analyze_direct_changes.py line 53). -/
def matchFnExprAt (s : List Char) : Option (List Char) :=
  match matchConstHead s with
  | none => none
  | some (nm, rest) =>
    let r2 := optKw "async".data rest
    if "function".data.isPrefixOf r2 then
      match (r2.drop 8).head? with
      | some c => if isWordChar c then none else some nm
      | none => some nm
    else none

/- `re.search` for each of the three function patterns. -/
def searchPat (pat : List Char → Option (List Char)) : List Char → Option (List Char)
  | [] => pat []
  | c :: rest => (pat (c :: rest)).orElse fun _ => searchPat pat rest

/- The reserved-word list `HelperAnalyzer.js_keywords`
(src/analyze_direct_changes.py lines 29-39). -/
def js_keywords : List String :=
  ["if", "else", "for", "while", "do", "switch", "case", "default",
   "break", "continue", "return", "function", "class", "interface",
   "extends", "implements", "import", "export", "from", "as",
   "const", "let", "var", "typeof", "instanceof", "new", "delete",
   "void", "this", "super", "try", "catch", "finally", "throw",
   "debugger", "with", "yield", "await", "async", "static",
   "public", "private", "protected", "readonly", "abstract",
   "enum", "type", "namespace", "module", "require",
   "true", "false", "null", "undefined", "NaN", "Infinity"]

/- Python `str.lower()`, mapped over the characters. -/
def lowerStr (n : String) : String := String.mk (n.data.map Char.toLower)

/- Keyword filter of src/analyze_direct_changes.py line 62:
`if func_name and func_name.lower() not in self.js_keywords`.  The lowered
name is compared against the list as written in the source, so the
capitalized entries "NaN" and "Infinity" never match anything. -/
def funcNameOk (n : String) : Bool :=
  !(n == "") && !(js_keywords.contains (lowerStr n))

/- Names a single line contributes in `extract_functions_with_lines`
(src/analyze_direct_changes.py lines 50-65): the three patterns in order,
each filtered through the keyword check before insertion. -/
def funcLineNames (l : List Char) : List String :=
  (([searchPat matchFnDeclAt l, searchPat matchArrowAt l,
     searchPat matchFnExprAt l]).filterMap (fun o => o.map String.mk)).filter funcNameOk

/- `HelperAnalyzer.extract_functions_with_lines`
(src/analyze_direct_changes.py lines 41-67). -/
def extract_functions_with_lines (content : List Char) : BlockDict :=
  extractGo funcLineNames find_function_end (splitLines content) (splitLines content) 1 []

/- `ChangeType` (src/test_analyzer.py lines 14-17). -/
inductive ChangeType where
  | ADDED
  | MODIFIED
  | REMOVED
deriving DecidableEq

/- `TestImpact` (src/test_analyzer.py lines 19-25). -/
structure TestImpact where
  test_name : String
  file_path : String
  change_type : ChangeType
  lines_changed : Option (List Int) := none
  impacted_by_helper : Option String := none
deriving DecidableEq

/- The changed lines of `changed_lines` falling inside the span `[cs, ce]`
(the list comprehension of src/test_analyzer.py lines 136-139), in ascending
order (Python iterates the set in unspecified order; the model fixes one
deterministic order without affecting membership). -/
def spanChangedLines (changed_lines : Finset Int) (cs ce : Nat) : List Int :=
  (changed_lines.filter (fun l => (cs : Int) ≤ l ∧ l ≤ (ce : Int))).sort (· ≤ ·)

/- Treatment of one common test name in the Modified branch
(src/test_analyzer.py lines 131-147): look its current span up, and emit a
Modified impact exactly when some changed line falls inside the span. -/
def modifiedRecord (current_tests : BlockDict) (changed_lines : Finset Int)
    (file_path n : String) : Option TestImpact :=
  match dictLookup n current_tests with
  | some (cs, ce) =>
    if spanChangedLines changed_lines cs ce = [] then none
    else some { test_name := n, file_path := file_path, change_type := .MODIFIED,
                lines_changed := some (spanChangedLines changed_lines cs ce) }
  | none => none

/- Classification body of `TestAnalyzer.analyze_file_changes`
(src/test_analyzer.py lines 97-148), taking the extraction results and the
changed-line set as arguments (the source obtains them from the repo on
lines 85-95; see `analyze_file_changes` below).  Python iterates `set`
differences and intersections in unspecified set order; the model iterates
names in dict order, which fixes one deterministic order without affecting
membership. -/
def analyze_file_changes_core (current_tests previous_tests : BlockDict)
    (changed_lines : Finset Int) (file_path status : String) : List TestImpact :=
  if status = "A" then
    current_tests.map (fun e =>
      { test_name := e.1, file_path := file_path, change_type := .ADDED })
  else if status = "D" then
    previous_tests.map (fun e =>
      { test_name := e.1, file_path := file_path, change_type := .REMOVED })
  else
    let curNames := current_tests.map (fun e => e.1)
    let prevNames := previous_tests.map (fun e => e.1)
    let added := (curNames.filter (fun n => decide (n ∉ prevNames))).map
      (fun n => ({ test_name := n, file_path := file_path, change_type := .ADDED } : TestImpact))
    let removed := (prevNames.filter (fun n => decide (n ∉ curNames))).map
      (fun n => ({ test_name := n, file_path := file_path, change_type := .REMOVED } : TestImpact))
    let modified := (curNames.filter (fun n => decide (n ∈ prevNames))).filterMap
      (modifiedRecord current_tests changed_lines file_path)
    added ++ removed ++ modified

/- `TestAnalyzer.analyze_file_changes` (src/test_analyzer.py lines 75-149). -/
def analyze_file_changes (r : GitRepo) (commit_sha file_path status : String) :
    List TestImpact :=
  let current_content := get_file_content r commit_sha file_path
  let parent_commit := get_parent_commit r commit_sha
  let previous_content :=
    if parent_commit ≠ "" then get_file_content r parent_commit file_path else ""
  analyze_file_changes_core (extract_tests_with_lines current_content.data)
    (extract_tests_with_lines previous_content.data)
    (get_changed_lines r commit_sha file_path) file_path status

/- Wordness of an optional character; absent characters (string ends) count
as non-word, as in Python's `\b`. -/
def wordness : Option Char → Bool
  | none => false
  | some c => isWordChar c

/- A `\b` word boundary between two adjacent (optional) characters. -/
def isBoundary (a b : Option Char) : Bool := wordness a != wordness b

/- Match of `\b<func>\s*(?:\(|\.)` anchored at the current position, with
`prev` the character just before it (src/analyze_direct_changes.py line 197). -/
def matchInvokeAt (f : List Char) (prev : Option Char) (s : List Char) : Bool :=
  isBoundary prev s.head? && f.isPrefixOf s &&
    (match ((s.drop f.length).dropWhile Char.isWhitespace).head? with
     | some c => c == '(' || c == '.'
     | none => false)

/- Match of `\b<func>\b` anchored at the current position
(src/analyze_direct_changes.py line 170). -/
def matchWordAt (f : List Char) (prev : Option Char) (s : List Char) : Bool :=
  isBoundary prev s.head? && f.isPrefixOf s &&
    isBoundary (match f.getLast? with | some c => some c | none => prev)
      (s.drop f.length).head?

/- `re.search` over all positions, threading the previous character for `\b`. -/
def searchFrom (p : Option Char → List Char → Bool) : Option Char → List Char → Bool
  | prev, [] => p prev []
  | prev, c :: rest => p prev (c :: rest) || searchFrom p (some c) rest

def usesFuncPattern (f s : List Char) : Bool := searchFrom (matchInvokeAt f) none s

def wholeWordOccurs (f s : List Char) : Bool := searchFrom (matchWordAt f) none s

/- `test_content.replace('\r\n', '\n').replace('\r', '\n')`
(src/analyze_direct_changes.py line 164). -/
def normalizeNewlines : List Char → List Char
  | [] => []
  | ['\r'] => ['\n']
  | '\r' :: '\n' :: rest => '\n' :: normalizeNewlines rest
  | '\r' :: c :: rest => '\n' :: normalizeNewlines (c :: rest)
  | c :: rest => c :: normalizeNewlines rest

/- Python slice `lines[start_line-1:end_line]` joined back into a text block
(src/analyze_direct_changes.py lines 190-191). -/
def sliceBlock (lines : List (List Char)) (s e : Nat) : List Char :=
  joinLines ((lines.drop (s - 1)).take (e - (s - 1)))

/- One emitted helper impact (src/analyze_direct_changes.py lines 201-206). -/
def mkHelperImpact (helper_file tf nm f : String) : TestImpact :=
  { test_name := nm.trim, file_path := tf, change_type := .MODIFIED,
    impacted_by_helper := some (helper_file ++ ":" ++ f) }

/- `HelperAnalyzer.find_tests_using_functions`
(src/analyze_direct_changes.py lines 140-211): for each test file, skip it if
its content is empty or no changed function occurs in it as a whole word;
otherwise extract its tests and, per test and per function, emit an impact
when the test's sliced line range matches `\b<func>\s*(?:\(|\.)`. -/
def find_tests_using_functions (r : GitRepo) (helper_file : String)
    (functions : List String) : List TestImpact :=
  if functions.isEmpty then [] else
  (get_all_test_files r).flatMap fun tf =>
    let raw := get_file_content r "HEAD" tf
    if raw = "" then [] else
    let tc := normalizeNewlines raw.data
    if !(functions.any fun f => wholeWordOccurs f.data tc) then [] else
    let tests := extract_tests_with_lines tc
    if tests.isEmpty then [] else
    let lines := splitLines tc
    tests.flatMap fun e =>
      (functions.filter fun f => usesFuncPattern f.data (sliceBlock lines e.2.1 e.2.2)).map
        fun f => mkHelperImpact helper_file tf e.1 f

/- Per-match record list as §4.4 of the spec words it: for each test file's
(normalized) content, for each recovered test span, and for each changed
function whose pattern matches the sliced range, exactly one `TestImpact`
with `change_type = Modified` and `impacted_by_helper = "<helper>:<func>"`. -/
def specMatchRecords (r : GitRepo) (helper_file : String)
    (functions : List String) : List TestImpact :=
  (get_all_test_files r).flatMap fun tf =>
    let tc := normalizeNewlines (get_file_content r "HEAD" tf).data
    let lines := splitLines tc
    (extract_tests_with_lines tc).flatMap fun e =>
      (functions.filter fun f => usesFuncPattern f.data (sliceBlock lines e.2.1 e.2.2)).map
        fun f => mkHelperImpact helper_file tf e.1 f

/- `HelperAnalyzer.find_changed_functions`
(src/analyze_direct_changes.py lines 89-138): functions of the current version
whose span meets a changed line, then added names, then removed names, each
appended only if not already collected (set differences iterated in key order). -/
def find_changed_functions (r : GitRepo) (commit_sha file_path : String) : List String :=
  let current_content := get_file_content r commit_sha file_path
  let parent_commit := get_parent_commit r commit_sha
  let previous_content :=
    if parent_commit ≠ "" then get_file_content r parent_commit file_path else ""
  if current_content = "" || previous_content = "" then [] else
  let current_functions := extract_functions_with_lines current_content.data
  let previous_functions := extract_functions_with_lines previous_content.data
  let changed_lines := get_changed_lines r commit_sha file_path
  let base := current_functions.filterMap fun e =>
    if (changed_lines.filter
        (fun l => (e.2.1 : Int) ≤ l ∧ l ≤ (e.2.2 : Int))).Nonempty
    then some e.1 else none
  let curNames := current_functions.map (fun e => e.1)
  let prevNames := previous_functions.map (fun e => e.1)
  let withAdded := (curNames.filter (fun n => decide (n ∉ prevNames))).foldl
    (fun acc n => if n ∈ acc then acc else acc ++ [n]) base
  (prevNames.filter (fun n => decide (n ∉ curNames))).foldl
    (fun acc n => if n ∈ acc then acc else acc ++ [n]) withAdded

/- `HelperAnalyzer.analyze_helper_file_changes`
(src/analyze_direct_changes.py lines 213-256). -/
def analyze_helper_file_changes (r : GitRepo) (commit_sha file_path status : String) :
    List TestImpact :=
  let functions :=
    if status = "A" then
      let current_content := get_file_content r commit_sha file_path
      if current_content ≠ "" then
        (extract_functions_with_lines current_content.data).map (fun e => e.1)
      else []
    else if status = "D" then
      let parent_commit := get_parent_commit r commit_sha
      let previous_content := get_file_content r parent_commit file_path
      if previous_content ≠ "" then
        (extract_functions_with_lines previous_content.data).map (fun e => e.1)
      else []
    else find_changed_functions r commit_sha file_path
  if functions ≠ [] then find_tests_using_functions r file_path functions else []

/- `TestImpactAnalyzer.analyze_commit` (src/test_impact_analyzer.py lines
22-74): split the commit's changed files into test files (`.spec.ts`) and
helper files (other `.ts`/`.js`), analyze each, concatenate.  `none`
propagates the modelled ValueError of `get_commit_files`. -/
def analyze_commit (r : GitRepo) (commit_sha : String) : Option (List TestImpact) :=
  match get_commit_files r commit_sha with
  | none => none
  | some changed_files =>
    if changed_files.isEmpty then some [] else
    let test_files := changed_files.filter fun sp => sp.2.endsWith ".spec.ts"
    let helper_files := changed_files.filter fun sp =>
      !(sp.2.endsWith ".spec.ts") && (sp.2.endsWith ".ts" || sp.2.endsWith ".js")
    some ((test_files.flatMap fun sp => analyze_file_changes r commit_sha sp.2 sp.1) ++
          (helper_files.flatMap fun sp => analyze_helper_file_changes r commit_sha sp.2 sp.1))

/- Python truthiness of `impact.impacted_by_helper` (`Optional[str]`). -/
def impactTruthyHelper (i : TestImpact) : Bool :=
  match i.impacted_by_helper with
  | none => false
  | some s => !(s == "")

/- The presentation key `f"{impact.file_path}:{impact.test_name}"`
(src/test_impact_analyzer.py lines 133 and 141). -/
def dedupKey (i : TestImpact) : String := i.file_path ++ ":" ++ i.test_name

/- One step of the seen-set accumulation in `print_results`. -/
def addUnique (st : List TestImpact × List String) (i : TestImpact) :
    List TestImpact × List String :=
  if dedupKey i ∈ st.2 then st else (st.1 ++ [i], st.2 ++ [dedupKey i])

/- Deduplication passes of `TestImpactAnalyzer.print_results`
(src/test_impact_analyzer.py lines 125-146): first insert the direct impacts
(helper field falsy), then the helper impacts whose key is still unseen. -/
def dedup_impacts (impacts : List TestImpact) : List TestImpact :=
  let st1 := (impacts.filter fun i => !impactTruthyHelper i).foldl addUnique ([], [])
  let st2 := (impacts.filter fun i => impactTruthyHelper i).foldl addUnique st1
  st2.1

/- Greatest (1-based, counting from `i`) line number of `rem` whose pattern
names include `nm`; used to state the last-wins property of the extractors. -/
def lastMatch (names : List Char → List String) (nm : String) :
    List (List Char) → Nat → Option Nat
  | [], _ => none
  | l :: rest, i =>
    match lastMatch names nm rest (i + 1) with
    | some m => some m
    | none => if nm ∈ names l then some i else none

/- A repository whose every subprocess invocation exits non-zero. -/
def failRepoA : GitRepo := ⟨fun _ => .error "nonzero exit"⟩

def failRepoB : GitRepo := ⟨fun _ => .error "nonzero exit"⟩

/- Concrete two-line test file used by witnesses: `test("a") {` then `}`. -/
def wContentTest : List Char :=
  ['t', 'e', 's', 't', '(', '"', 'a', '"', ')', ' ', '{', '\n', '}']

/- Concrete file with two identically named test blocks on lines 1-2 and 3-4. -/
def wContentDup : List Char :=
  ['t', 'e', 's', 't', '(', '"', 'a', '"', ')', ' ', '{', '\n', '}', '\n',
   't', 'e', 's', 't', '(', '"', 'a', '"', ')', ' ', '{', '\n', '}']

/- Concrete file with two identically named function blocks (lines 1-2, 3-4). -/
def wContentDupFn : List Char :=
  ['f', 'u', 'n', 'c', 't', 'i', 'o', 'n', ' ', 'f', '(', ')', ' ', '{', '\n', '}', '\n',
   'f', 'u', 'n', 'c', 't', 'i', 'o', 'n', ' ', 'f', '(', ')', ' ', '{', '\n', '}']

/- Concrete test file whose single test invokes `computeTotal`. -/
def wContentUses : List Char :=
  ['t', 'e', 's', 't', '(', '"', 't', '1', '"', ')', ' ', '{', '\n',
   ' ', ' ', 'c', 'o', 'm', 'p', 'u', 't', 'e', 'T', 'o', 't', 'a', 'l', '(', '5', ')', '\n',
   '}']

/- Repository oracle for the correlation witness: one test file whose content
is `wContentUses`; every other command fails. -/
def usesRepo : GitRepo := ⟨fun args =>
  if args = ["git", "ls-files", "*.spec.ts"] then .ok "a.spec.ts"
  else if args = ["git", "show", "HEAD:a.spec.ts"] then .ok (String.mk wContentUses)
  else .error "nonzero exit"⟩

/- Character just before a given position: the last character of the prefix
scanned so far, or the seed character when the prefix is empty.  Used to state
what `searchFrom` has matched. -/
def lastOpt (prev : Option Char) (pre : List Char) : Option Char :=
  match pre.getLast? with
  | some c => some c
  | none => prev

/- The two brace-balance loops are the same function. -/
theorem findEndLoops_eq : ∀ (ls : List (List Char)) (i : Nat) (bc : Int) (b : Bool),
    findTestEndLoop ls i bc b = findFunctionEndLoop ls i bc b := by
  intro ls
  induction ls with
  | nil => intro i bc b; rfl
  | cons l rest ih =>
    intro i bc b
    simp only [findTestEndLoop, findFunctionEndLoop, ih]

/-- C10: the two separately implemented brace-balance span finders —
`TestAnalyzer._find_test_end` and `HelperAnalyzer._find_function_end` — are
extensionally equal: for every list of lines and every start line they return
the same end line. -/
theorem span_finders_agree : ∀ (lines : List (List Char)) (start_line : Nat),
    find_test_end lines start_line = find_function_end lines start_line := by
  intro lines start_line
  simp only [find_test_end, find_function_end, findEndLoops_eq]

/-- C2 counterexample: on the diff consisting of the hunk header
`@@ -1,3 +1,4 @@` followed by one `+` line, the mapper does NOT return {2}
(the cursor is set to 1 by the header and the `+` line records 1). -/
theorem diff_one_added_line_cex :
    diffChangedLines "@@ -1,3 +1,4 @@\n+x" ≠ ({2} : Finset Int) := by decide

/- Splitting a newline-free text yields a single line. -/
theorem splitLinesAux_no_nl : ∀ (a acc : List Char), '\n' ∉ a →
    splitLinesAux a acc = [acc.reverse ++ a] := by
  intro a
  induction a with
  | nil => intro acc _; simp [splitLinesAux]
  | cons c a' ih =>
    intro acc h
    have hc : ¬(c = '\n') := fun hr => h (hr ▸ List.mem_cons_self c a')
    have ha : '\n' ∉ a' := fun hm => h (List.mem_cons_of_mem c hm)
    simp [splitLinesAux, hc, ih (c :: acc) ha]

/- Splitting at the first newline of a text whose head segment is newline-free. -/
theorem splitLinesAux_append_nl : ∀ (a acc b : List Char), '\n' ∉ a →
    splitLinesAux (a ++ '\n' :: b) acc = (acc.reverse ++ a) :: splitLines b := by
  intro a
  induction a with
  | nil => intro acc b _; simp [splitLinesAux, splitLines]
  | cons c a' ih =>
    intro acc b h
    have hc : ¬(c = '\n') := fun hr => h (hr ▸ List.mem_cons_self c a')
    have ha : '\n' ∉ a' := fun hm => h (List.mem_cons_of_mem c hm)
    simp [splitLinesAux, hc, ih (c :: acc) b ha]

/-- C2 amended: for the unified-diff input consisting of the hunk header
`@@ -1,3 +1,4 @@` followed by exactly one line beginning with `+` (and not
with `+++`), the diff line mapper returns the changed-line set {1}: the
header sets the cursor to the captured new-start 1 and the `+` line records
the cursor before incrementing it. -/
theorem diff_one_added_line (t : List Char)
    (hp : "+++".data.isPrefixOf ('+' :: t) = false) (hnl : '\n' ∉ t) :
    diffChangedLines (String.mk ("@@ -1,3 +1,4 @@".data ++ '\n' :: '+' :: t)) =
      ({1} : Finset Int) := by
  have hnl2 : '\n' ∉ '+' :: t := by
    intro hm
    rcases List.mem_cons.mp hm with h | h
    · exact absurd h.symm (by decide)
    · exact hnl h
  have hsplit : splitLines ("@@ -1,3 +1,4 @@".data ++ '\n' :: '+' :: t) =
      ["@@ -1,3 +1,4 @@".data, '+' :: t] := by
    rw [splitLines, splitLinesAux_append_nl _ _ _ (by decide),
      splitLines, splitLinesAux_no_nl _ _ hnl2]
    simp
  show diffLoop (splitLines (String.mk ("@@ -1,3 +1,4 @@".data ++ '\n' :: '+' :: t)).data) 0 ∅ =
    ({1} : Finset Int)
  rw [show (String.mk ("@@ -1,3 +1,4 @@".data ++ '\n' :: '+' :: t)).data =
      "@@ -1,3 +1,4 @@".data ++ '\n' :: '+' :: t from rfl, hsplit]
  rw [show diffLoop ["@@ -1,3 +1,4 @@".data, '+' :: t] 0 ∅ =
      diffLoop ['+' :: t] 1 ∅ from rfl]
  simp only [diffLoop, hp]
  simp [List.isPrefixOf]

/-- C2 amended, witness at the concrete `+` line `+x`. -/
theorem diff_one_added_line_witness :
    ("+++".data.isPrefixOf ('+' :: ['x']) = false) ∧ ('\n' ∉ ['x']) ∧
      diffChangedLines (String.mk ("@@ -1,3 +1,4 @@".data ++ '\n' :: '+' :: ['x'])) =
        ({1} : Finset Int) :=
  ⟨by decide, by decide, diff_one_added_line ['x'] (by decide) (by decide)⟩

/-- C3: inside a hunk, every deletion line (beginning with `-` but not `---`)
records cursor − 1 and leaves the cursor unchanged; in particular, for the
hunk header `@@ -5,2 +5,1 @@` followed by exactly one `-` line, the mapper
returns {4}. -/
theorem deletion_attribution :
    (∀ (t : List Char) (rest : List (List Char)) (cur : Int) (acc : Finset Int),
      "---".data.isPrefixOf ('-' :: t) = false →
      diffLoop (('-' :: t) :: rest) cur acc = diffLoop rest cur (insert (cur - 1) acc)) ∧
    diffChangedLines "@@ -5,2 +5,1 @@\n-x" = ({4} : Finset Int) := by
  constructor
  · intro t rest cur acc h
    simp only [diffLoop, h, List.isPrefixOf_cons₂, List.isPrefixOf_nil_left]
    simp [List.isPrefixOf]
  · decide

/-- C3 witness: the deletion step at a concrete line and cursor, and the
concrete single-deletion diff. -/
theorem deletion_attribution_witness :
    ("---".data.isPrefixOf ('-' :: ['x']) = false) ∧
    diffLoop (('-' :: ['x']) :: []) 5 ∅ = diffLoop [] 5 (insert 4 ∅) ∧
    diffChangedLines "@@ -5,2 +5,1 @@\n-x" = ({4} : Finset Int) :=
  ⟨by decide,
   by
     have h := deletion_attribution.1 ['x'] [] 5 ∅ (by decide)
     simpa using h,
   deletion_attribution.2⟩

/-- C9: the pipeline is deterministic — two runs of `analyze_commit` on the
same commit whose external git invocations return identical outputs produce
the same `TestImpact` records (hence the same multiset). -/
theorem analyze_commit_deterministic (r1 r2 : GitRepo) (commit_sha : String)
    (h : ∀ args, r1.run args = r2.run args) :
    analyze_commit r1 commit_sha = analyze_commit r2 commit_sha := by
  have hr : r1 = r2 := by
    cases r1 with
    | mk f =>
      cases r2 with
      | mk g =>
        have : f = g := funext h
        rw [this]
  rw [hr]

/-- C9 witness: a concrete repository compared with itself. -/
theorem analyze_commit_deterministic_witness :
    (∀ args, failRepoA.run args = failRepoA.run args) ∧
      analyze_commit failRepoA "abc" = analyze_commit failRepoA "abc" :=
  ⟨fun _ => rfl, analyze_commit_deterministic failRepoA failRepoA "abc" (fun _ => rfl)⟩

/-- C8: version-control operations degrade to empty results when the
underlying git subcommand exits non-zero — listing changed files returns the
empty list, fetching file content returns the empty string — and a run whose
external commands all fail still completes, with an empty impact list. -/
theorem external_failure_degrades :
    (∀ (r : GitRepo) (commit_sha e : String),
      r.run ["git", "diff", "--name-status", commit_sha ++ "^.." ++ commit_sha] = .error e →
      get_commit_files r commit_sha = some []) ∧
    (∀ (r : GitRepo) (rev path e : String),
      r.run ["git", "show", rev ++ ":" ++ path] = .error e →
      get_file_content r rev path = "") ∧
    (∀ (r : GitRepo) (commit_sha : String),
      (∀ args, ∃ e, r.run args = .error e) →
      analyze_commit r commit_sha = some []) := by
  refine ⟨?_, ?_, ?_⟩
  · intro r commit_sha e h
    simp [get_commit_files, h]
  · intro r rev path e h
    simp [get_file_content, h]
  · intro r commit_sha h
    obtain ⟨e, he⟩ := h ["git", "diff", "--name-status", commit_sha ++ "^.." ++ commit_sha]
    simp [analyze_commit, get_commit_files, he]

/-- C8 witness: the always-failing repository. -/
theorem external_failure_degrades_witness :
    get_commit_files failRepoB "c0ffee" = some [] ∧
    get_file_content failRepoB "c0ffee" "src/a.ts" = "" ∧
    analyze_commit failRepoB "c0ffee" = some [] :=
  ⟨external_failure_degrades.1 failRepoB "c0ffee" "nonzero exit" rfl,
   external_failure_degrades.2.1 failRepoB "c0ffee" "src/a.ts" "nonzero exit" rfl,
   external_failure_degrades.2.2 failRepoB "c0ffee" (fun _ => ⟨"nonzero exit", rfl⟩)⟩

/-- C5 counterexample: the dedup key is the string `file_path ++ ":" ++
test_name`, so the distinct pairs ("a:b", "c") and ("a", "b:c") collide.  With
a direct impact on ("a:b", "c") first, the direct impact and the helper impact
on the pair key ("a", "b:c") are both dropped: a direct and a helper impact
share the pair key, yet the output contains no record at all for that key. -/
theorem dedup_pair_key_cex :
    ((⟨"b:c", "a", ChangeType.ADDED, none, none⟩ : TestImpact) ∈
      ([⟨"c", "a:b", ChangeType.ADDED, none, none⟩,
        ⟨"b:c", "a", ChangeType.ADDED, none, none⟩,
        ⟨"b:c", "a", ChangeType.MODIFIED, none, some "h.ts:f"⟩] : List TestImpact)) ∧
    impactTruthyHelper (⟨"b:c", "a", ChangeType.ADDED, none, none⟩ : TestImpact) = false ∧
    ((⟨"b:c", "a", ChangeType.MODIFIED, none, some "h.ts:f"⟩ : TestImpact) ∈
      ([⟨"c", "a:b", ChangeType.ADDED, none, none⟩,
        ⟨"b:c", "a", ChangeType.ADDED, none, none⟩,
        ⟨"b:c", "a", ChangeType.MODIFIED, none, some "h.ts:f"⟩] : List TestImpact)) ∧
    impactTruthyHelper (⟨"b:c", "a", ChangeType.MODIFIED, none, some "h.ts:f"⟩ : TestImpact) = true ∧
    ¬(∃ rec ∈ dedup_impacts
        ([⟨"c", "a:b", ChangeType.ADDED, none, none⟩,
          ⟨"b:c", "a", ChangeType.ADDED, none, none⟩,
          ⟨"b:c", "a", ChangeType.MODIFIED, none, some "h.ts:f"⟩] : List TestImpact),
        rec.file_path = "a" ∧ rec.test_name = "b:c") := by decide

/- Invariant: the seen-key set of the dedup fold is exactly the key list of
the accumulated output. -/
theorem foldl_addUnique_seen_eq_keys :
    ∀ (l : List TestImpact) (st : List TestImpact × List String),
      st.2 = st.1.map dedupKey →
      (l.foldl addUnique st).2 = (l.foldl addUnique st).1.map dedupKey := by
  intro l
  induction l with
  | nil => intro st h; exact h
  | cons i t ih =>
    intro st h
    by_cases hk : dedupKey i ∈ st.2
    · simpa [addUnique, hk] using ih st h
    · rw [List.foldl_cons,
        show addUnique st i = (st.1 ++ [i], st.2 ++ [dedupKey i]) from by simp [addUnique, hk]]
      refine ih _ ?_
      simp [h]

/- Invariant: the seen-key list of the dedup fold has no duplicates. -/
theorem foldl_addUnique_seen_nodup :
    ∀ (l : List TestImpact) (st : List TestImpact × List String),
      st.2.Nodup → (l.foldl addUnique st).2.Nodup := by
  intro l
  induction l with
  | nil => intro st h; exact h
  | cons i t ih =>
    intro st h
    by_cases hk : dedupKey i ∈ st.2
    · simpa [addUnique, hk] using ih st h
    · rw [List.foldl_cons,
        show addUnique st i = (st.1 ++ [i], st.2 ++ [dedupKey i]) from by simp [addUnique, hk]]
      refine ih _ ?_
      rw [List.nodup_append]
      refine ⟨h, List.nodup_singleton _, ?_⟩
      intro a ha hb
      have : a = dedupKey i := by simpa using hb
      exact hk (this ▸ ha)

/- Every output element of the dedup fold comes from the initial state or
from the processed list, and in the latter case its key was unseen when the
fold started. -/
theorem foldl_addUnique_mem :
    ∀ (l : List TestImpact) (st : List TestImpact × List String) (x : TestImpact),
      x ∈ (l.foldl addUnique st).1 → x ∈ st.1 ∨ (x ∈ l ∧ dedupKey x ∉ st.2) := by
  intro l
  induction l with
  | nil => intro st x h; exact Or.inl h
  | cons i t ih =>
    intro st x h
    by_cases hk : dedupKey i ∈ st.2
    · rw [List.foldl_cons, show addUnique st i = st from by simp [addUnique, hk]] at h
      rcases ih st x h with h1 | ⟨h2, h3⟩
      · exact Or.inl h1
      · exact Or.inr ⟨List.mem_cons_of_mem _ h2, h3⟩
    · rw [List.foldl_cons,
        show addUnique st i = (st.1 ++ [i], st.2 ++ [dedupKey i]) from by simp [addUnique, hk]] at h
      rcases ih _ x h with h1 | ⟨h2, h3⟩
      · rcases List.mem_append.mp h1 with h4 | h4
        · exact Or.inl h4
        · have : x = i := by simpa using h4
          exact Or.inr ⟨this ▸ List.mem_cons_self i t, this ▸ hk⟩
      · have : dedupKey x ∉ st.2 := fun hm => h3 (List.mem_append.mpr (Or.inl hm))
        exact Or.inr ⟨List.mem_cons_of_mem _ h2, this⟩

/- The seen-key set of the dedup fold only grows. -/
theorem foldl_addUnique_seen_mono :
    ∀ (l : List TestImpact) (st : List TestImpact × List String) (k : String),
      k ∈ st.2 → k ∈ (l.foldl addUnique st).2 := by
  intro l
  induction l with
  | nil => intro st k h; exact h
  | cons i t ih =>
    intro st k h
    by_cases hk : dedupKey i ∈ st.2
    · rw [List.foldl_cons, show addUnique st i = st from by simp [addUnique, hk]]
      exact ih st k h
    · rw [List.foldl_cons,
        show addUnique st i = (st.1 ++ [i], st.2 ++ [dedupKey i]) from by simp [addUnique, hk]]
      exact ih _ k (List.mem_append.mpr (Or.inl h))

/- After folding, the key of every processed impact has been seen. -/
theorem foldl_addUnique_covers :
    ∀ (l : List TestImpact) (st : List TestImpact × List String) (x : TestImpact),
      x ∈ l → dedupKey x ∈ (l.foldl addUnique st).2 := by
  intro l
  induction l with
  | nil => intro st x h; exact absurd h (List.not_mem_nil x)
  | cons i t ih =>
    intro st x h
    rcases List.mem_cons.mp h with h1 | h1
    · subst h1
      by_cases hk : dedupKey x ∈ st.2
      · rw [List.foldl_cons, show addUnique st x = st from by simp [addUnique, hk]]
        exact foldl_addUnique_seen_mono t st _ hk
      · rw [List.foldl_cons,
          show addUnique st x = (st.1 ++ [x], st.2 ++ [dedupKey x]) from by simp [addUnique, hk]]
        exact foldl_addUnique_seen_mono t _ _ (List.mem_append.mpr (Or.inr (by simp)))
    · exact ih _ x h1

/- A list whose keys are pairwise distinct keeps at most one record per key
under filtering by key. -/
theorem filter_key_len_le_one :
    ∀ (l : List TestImpact) (k : String), (l.map dedupKey).Nodup →
      (l.filter (fun rec => dedupKey rec == k)).length ≤ 1 := by
  intro l
  induction l with
  | nil => intro k _; simp
  | cons x t ih =>
    intro k h
    rw [List.map_cons, List.nodup_cons] at h
    by_cases hx : dedupKey x = k
    · have ht : t.filter (fun rec => dedupKey rec == k) = [] := by
        refine List.filter_eq_nil_iff.mpr ?_
        intro a ha hk2
        have ha2 : dedupKey a = k := by simpa using hk2
        exact h.1 ((hx.trans ha2.symm) ▸ List.mem_map_of_mem dedupKey ha)
      simp [List.filter_cons, hx, ht]
    · simp only [List.filter_cons, show (dedupKey x == k) = false from by simpa using hx]
      exact ih k h.2

/-- C5 amended: aggregation deduplicates on the joined string key
`file_path ++ ":" ++ test_name` (conflating distinct pairs whose joined
strings coincide): the output has at most one record per joined key, direct
impacts (falsy `impacted_by_helper`) are inserted first and a helper impact
only if its joined key is not already present; hence when a direct impact and
a helper impact share a joined key, the output contains exactly one record
with that joined key, and it is a direct one from the input, with
`impacted_by_helper` unset (falsy). -/
theorem dedup_joined_key (impacts : List TestImpact) (d h' : TestImpact)
    (hd : d ∈ impacts) (hdir : impactTruthyHelper d = false)
    (_hh : h' ∈ impacts) (_hhel : impactTruthyHelper h' = true)
    (_hkey : dedupKey d = dedupKey h') :
    (∀ k, ((dedup_impacts impacts).filter (fun rec => dedupKey rec == k)).length ≤ 1) ∧
    ((dedup_impacts impacts).filter (fun rec => dedupKey rec == dedupKey d)).length = 1 ∧
    (∀ rec ∈ dedup_impacts impacts, dedupKey rec = dedupKey d →
      rec ∈ impacts ∧ impactTruthyHelper rec = false) := by
  have hkeys : ((dedup_impacts impacts).map dedupKey).Nodup := by
    have h1 := foldl_addUnique_seen_eq_keys (impacts.filter fun i => !impactTruthyHelper i)
      (([], []) : List TestImpact × List String) (by simp)
    have h2 := foldl_addUnique_seen_eq_keys (impacts.filter fun i => impactTruthyHelper i)
      ((impacts.filter fun i => !impactTruthyHelper i).foldl addUnique ([], [])) h1
    have h3 := foldl_addUnique_seen_nodup (impacts.filter fun i => !impactTruthyHelper i)
      (([], []) : List TestImpact × List String) (by simp)
    have h4 := foldl_addUnique_seen_nodup (impacts.filter fun i => impactTruthyHelper i) _ h3
    rw [h2] at h4
    exact h4
  have hdmem : d ∈ impacts.filter fun i => !impactTruthyHelper i :=
    List.mem_filter.mpr ⟨hd, by simp [hdir]⟩
  have hcov1 : dedupKey d ∈
      ((impacts.filter fun i => !impactTruthyHelper i).foldl addUnique ([], [])).2 :=
    foldl_addUnique_covers _ _ _ hdmem
  have hcov : dedupKey d ∈
      ((impacts.filter fun i => impactTruthyHelper i).foldl addUnique
        ((impacts.filter fun i => !impactTruthyHelper i).foldl addUnique ([], []))).2 :=
    foldl_addUnique_seen_mono _ _ _ hcov1
  have hseen : ((impacts.filter fun i => impactTruthyHelper i).foldl addUnique
      ((impacts.filter fun i => !impactTruthyHelper i).foldl addUnique ([], []))).2 =
      (dedup_impacts impacts).map dedupKey := by
    have h1 := foldl_addUnique_seen_eq_keys (impacts.filter fun i => !impactTruthyHelper i)
      (([], []) : List TestImpact × List String) (by simp)
    exact foldl_addUnique_seen_eq_keys _ _ h1
  refine ⟨fun k => filter_key_len_le_one _ k hkeys, ?_, ?_⟩
  · refine Nat.le_antisymm (filter_key_len_le_one _ _ hkeys) ?_
    rw [hseen] at hcov
    obtain ⟨rec, hrec, hreck⟩ := List.mem_map.mp hcov
    have : rec ∈ (dedup_impacts impacts).filter (fun rec => dedupKey rec == dedupKey d) :=
      List.mem_filter.mpr ⟨hrec, by simp [hreck]⟩
    exact List.length_pos_of_mem this
  · intro rec hrec hreck
    rcases foldl_addUnique_mem _ _ _ hrec with h1 | ⟨h2, h3⟩
    · rcases foldl_addUnique_mem _ _ _ h1 with h4 | ⟨h5, _⟩
      · simp at h4
      · have := List.mem_filter.mp h5
        exact ⟨this.1, by simpa using this.2⟩
    · exact absurd (hreck ▸ hcov1) h3

/-- C5 amended, witness: one direct and one helper impact sharing the joined
key; the output keeps exactly the direct record. -/
theorem dedup_joined_key_witness :
    ((⟨"login works", "file.ts", ChangeType.MODIFIED, none, none⟩ : TestImpact) ∈
      ([⟨"login works", "file.ts", ChangeType.MODIFIED, none, none⟩,
        ⟨"login works", "file.ts", ChangeType.MODIFIED, none, some "h.ts:f"⟩] : List TestImpact)) ∧
    (∀ rec ∈ dedup_impacts
        ([⟨"login works", "file.ts", ChangeType.MODIFIED, none, none⟩,
          ⟨"login works", "file.ts", ChangeType.MODIFIED, none, some "h.ts:f"⟩] : List TestImpact),
      dedupKey rec = dedupKey (⟨"login works", "file.ts", ChangeType.MODIFIED, none, none⟩ : TestImpact) →
      rec ∈ ([⟨"login works", "file.ts", ChangeType.MODIFIED, none, none⟩,
          ⟨"login works", "file.ts", ChangeType.MODIFIED, none, some "h.ts:f"⟩] : List TestImpact) ∧
        impactTruthyHelper rec = false) :=
  ⟨by decide,
   (dedup_joined_key
      [⟨"login works", "file.ts", ChangeType.MODIFIED, none, none⟩,
       ⟨"login works", "file.ts", ChangeType.MODIFIED, none, some "h.ts:f"⟩]
      ⟨"login works", "file.ts", ChangeType.MODIFIED, none, none⟩
      ⟨"login works", "file.ts", ChangeType.MODIFIED, none, some "h.ts:f"⟩
      (by decide) (by decide) (by decide) (by decide) (by decide)).2.2⟩

/- Unfolding of the classifier at a Modified file status. -/
theorem core_M_eq (current_tests previous_tests : BlockDict)
    (changed_lines : Finset Int) (file_path : String) :
    analyze_file_changes_core current_tests previous_tests changed_lines file_path "M" =
      ((current_tests.map (fun e => e.1)).filter
          (fun n => decide (n ∉ previous_tests.map (fun e => e.1)))).map
        (fun n => ({ test_name := n, file_path := file_path, change_type := .ADDED } : TestImpact)) ++
      ((previous_tests.map (fun e => e.1)).filter
          (fun n => decide (n ∉ current_tests.map (fun e => e.1)))).map
        (fun n => ({ test_name := n, file_path := file_path, change_type := .REMOVED } : TestImpact)) ++
      ((current_tests.map (fun e => e.1)).filter
          (fun n => decide (n ∈ previous_tests.map (fun e => e.1)))).filterMap
        (modifiedRecord current_tests changed_lines file_path) := by
  rw [analyze_file_changes_core, if_neg (by decide), if_neg (by decide)]

/- Characterization of one emitted Modified record. -/
theorem modifiedRecord_eq_some {current_tests : BlockDict} {changed_lines : Finset Int}
    {fp n : String} {imp : TestImpact} :
    modifiedRecord current_tests changed_lines fp n = some imp ↔
      ∃ cs ce, dictLookup n current_tests = some (cs, ce) ∧
        spanChangedLines changed_lines cs ce ≠ [] ∧
        imp = { test_name := n, file_path := fp, change_type := .MODIFIED,
                lines_changed := some (spanChangedLines changed_lines cs ce) } := by
  constructor
  · intro h
    rcases hlk : dictLookup n current_tests with _ | ⟨cs, ce⟩
    · rw [modifiedRecord, hlk] at h; cases h
    · rw [modifiedRecord, hlk] at h
      by_cases htcl : spanChangedLines changed_lines cs ce = []
      · simp only [htcl, if_pos] at h
        cases h
      · simp only [if_neg htcl] at h
        exact ⟨cs, ce, rfl, htcl, (Option.some.inj h).symm⟩
  · rintro ⟨cs, ce, hlk, htcl, rfl⟩
    rw [modifiedRecord, hlk]
    simp only [if_neg htcl]

/- Nonemptiness of the in-span changed-line list is the overlap test. -/
theorem spanChangedLines_ne_nil {changed : Finset Int} {cs ce : Nat} :
    spanChangedLines changed cs ce ≠ [] ↔
      ∃ l ∈ changed, (cs : Int) ≤ l ∧ l ≤ (ce : Int) := by
  unfold spanChangedLines
  constructor
  · intro h
    rcases List.exists_mem_of_ne_nil _ h with ⟨a, ha⟩
    rcases Finset.mem_filter.mp ((Finset.mem_sort _).mp ha) with ⟨h1, h2⟩
    exact ⟨a, h1, h2⟩
  · rintro ⟨l, hl, h1, h2⟩
    intro hnil
    have hm : l ∈ (changed.filter fun l => (cs : Int) ≤ l ∧ l ≤ (ce : Int)).sort (· ≤ ·) :=
      (Finset.mem_sort _).mpr (Finset.mem_filter.mpr ⟨hl, h1, h2⟩)
    rw [hnil] at hm
    exact List.not_mem_nil _ hm

/- A dict lookup that succeeds certifies key membership. -/
theorem dictLookup_some_mem {n : String} {m : BlockDict} {v : Nat × Nat}
    (h : dictLookup n m = some v) : n ∈ m.map (fun e => e.1) := by
  rcases Option.map_eq_some'.mp h with ⟨e, he, _⟩
  have h1 : e.1 = n := by simpa using List.find?_some he
  exact h1 ▸ List.mem_map_of_mem _ (List.mem_of_find?_eq_some he)

/- At most one Modified record per name over a duplicate-free name list. -/
theorem filterMap_modifiedRecord_count (cur : BlockDict) (changed : Finset Int)
    (fp name : String) :
    ∀ (l : List String), l.Nodup →
      ((l.filterMap (modifiedRecord cur changed fp)).filter
        (fun imp => imp.test_name == name && imp.change_type == ChangeType.MODIFIED)).length ≤ 1 := by
  intro l
  induction l with
  | nil => intro _; simp
  | cons n t ih =>
    intro hnd
    rw [List.nodup_cons] at hnd
    rcases hmr : modifiedRecord cur changed fp n with _ | imp
    · rw [List.filterMap_cons_none hmr]
      exact ih hnd.2
    · rw [List.filterMap_cons_some hmr]
      rcases modifiedRecord_eq_some.mp hmr with ⟨cs, ce, _, _, himp⟩
      have hname : imp.test_name = n := by rw [himp]
      have ht : ∀ a ∈ t.filterMap (modifiedRecord cur changed fp),
          a.test_name = n → False := by
        intro a ha hae
        rcases List.mem_filterMap.mp ha with ⟨n', hn', hmr'⟩
        rcases modifiedRecord_eq_some.mp hmr' with ⟨_, _, _, _, rfl⟩
        exact hnd.1 (hae ▸ hn')
      by_cases hn : n = name
      · subst hn
        have ht2 : (t.filterMap (modifiedRecord cur changed fp)).filter
            (fun imp => imp.test_name == n && imp.change_type == ChangeType.MODIFIED) = [] := by
          refine List.filter_eq_nil_iff.mpr ?_
          intro a ha hp
          simp only [Bool.and_eq_true, beq_iff_eq] at hp
          exact ht a ha hp.1
        rw [List.filter_cons]
        simp only [ht2]
        split
        · simp
        · simp
      · rw [List.filter_cons]
        have hcond : (imp.test_name == name && imp.change_type == ChangeType.MODIFIED) = false := by
          simp [hname, hn]
        rw [hcond]
        simp only [Bool.false_eq_true, if_false]
        exact ih hnd.2

/-- C1: for a test file with status Modified, classification partitions the
block names: a name is classified Added iff it is in the current version but
not the previous; Removed iff in the previous but not the current; a common
name receives a Modified impact iff its current span [start, end] contains a
changed line (only the current span is consulted), no impact at all when it
does not, and at most one Modified impact when it does. -/
theorem modified_classification (current_tests previous_tests : BlockDict)
    (changed_lines : Finset Int) (file_path name : String)
    (hc : (current_tests.map (fun e => e.1)).Nodup) :
    ((∃ imp ∈ analyze_file_changes_core current_tests previous_tests changed_lines file_path "M",
        imp.test_name = name ∧ imp.change_type = ChangeType.ADDED) ↔
      (name ∈ current_tests.map (fun e => e.1) ∧ name ∉ previous_tests.map (fun e => e.1))) ∧
    ((∃ imp ∈ analyze_file_changes_core current_tests previous_tests changed_lines file_path "M",
        imp.test_name = name ∧ imp.change_type = ChangeType.REMOVED) ↔
      (name ∈ previous_tests.map (fun e => e.1) ∧ name ∉ current_tests.map (fun e => e.1))) ∧
    (∀ cs ce : Nat, dictLookup name current_tests = some (cs, ce) →
      name ∈ previous_tests.map (fun e => e.1) →
      (((∃ imp ∈ analyze_file_changes_core current_tests previous_tests changed_lines file_path "M",
          imp.test_name = name ∧ imp.change_type = ChangeType.MODIFIED) ↔
        ∃ l ∈ changed_lines, (cs : Int) ≤ l ∧ l ≤ (ce : Int)) ∧
       ((¬ ∃ l ∈ changed_lines, (cs : Int) ≤ l ∧ l ≤ (ce : Int)) →
        ∀ imp ∈ analyze_file_changes_core current_tests previous_tests changed_lines file_path "M",
          imp.test_name ≠ name) ∧
       ((analyze_file_changes_core current_tests previous_tests changed_lines file_path "M").filter
          (fun imp => imp.test_name == name && imp.change_type == ChangeType.MODIFIED)).length ≤ 1)) := by
  rw [core_M_eq]
  refine ⟨?_, ?_, ?_⟩
  · constructor
    · rintro ⟨imp, hmem, hname, htype⟩
      rcases List.mem_append.mp hmem with h | h
      · rcases List.mem_append.mp h with h | h
        · rcases List.mem_map.mp h with ⟨n, hn, rfl⟩
          rcases List.mem_filter.mp hn with ⟨hn1, hn2⟩
          have he : n = name := hname
          subst he
          exact ⟨hn1, of_decide_eq_true hn2⟩
        · rcases List.mem_map.mp h with ⟨n, _, rfl⟩
          simp at htype
      · rcases List.mem_filterMap.mp h with ⟨n, _, hmr⟩
        rcases modifiedRecord_eq_some.mp hmr with ⟨_, _, _, _, rfl⟩
        simp at htype
    · rintro ⟨hin, hnotin⟩
      refine ⟨{ test_name := name, file_path := file_path, change_type := .ADDED },
        List.mem_append.mpr (Or.inl (List.mem_append.mpr (Or.inl ?_))), rfl, rfl⟩
      exact List.mem_map_of_mem _ (List.mem_filter.mpr ⟨hin, decide_eq_true hnotin⟩)
  · constructor
    · rintro ⟨imp, hmem, hname, htype⟩
      rcases List.mem_append.mp hmem with h | h
      · rcases List.mem_append.mp h with h | h
        · rcases List.mem_map.mp h with ⟨n, _, rfl⟩
          simp at htype
        · rcases List.mem_map.mp h with ⟨n, hn, rfl⟩
          rcases List.mem_filter.mp hn with ⟨hn1, hn2⟩
          have he : n = name := hname
          subst he
          exact ⟨hn1, of_decide_eq_true hn2⟩
      · rcases List.mem_filterMap.mp h with ⟨n, _, hmr⟩
        rcases modifiedRecord_eq_some.mp hmr with ⟨_, _, _, _, rfl⟩
        simp at htype
    · rintro ⟨hin, hnotin⟩
      refine ⟨{ test_name := name, file_path := file_path, change_type := .REMOVED },
        List.mem_append.mpr (Or.inl (List.mem_append.mpr (Or.inr ?_))), rfl, rfl⟩
      exact List.mem_map_of_mem _ (List.mem_filter.mpr ⟨hin, decide_eq_true hnotin⟩)
  · intro cs ce hlk hprev
    have hcur : name ∈ current_tests.map (fun e => e.1) := dictLookup_some_mem hlk
    refine ⟨?_, ?_, ?_⟩
    · constructor
      · rintro ⟨imp, hmem, hname, htype⟩
        rcases List.mem_append.mp hmem with h | h
        · rcases List.mem_append.mp h with h | h
          · rcases List.mem_map.mp h with ⟨n, _, rfl⟩
            simp at htype
          · rcases List.mem_map.mp h with ⟨n, _, rfl⟩
            simp at htype
        · rcases List.mem_filterMap.mp h with ⟨n, _, hmr⟩
          rcases modifiedRecord_eq_some.mp hmr with ⟨cs2, ce2, hlk2, htcl2, himp⟩
          have he : n = name := by rw [himp] at hname; exact hname
          subst he
          rw [hlk] at hlk2
          simp only [Option.some.injEq, Prod.mk.injEq] at hlk2
          obtain ⟨h1, h2⟩ := hlk2
          subst h1
          subst h2
          exact spanChangedLines_ne_nil.mp htcl2
      · intro hov
        have htcl : spanChangedLines changed_lines cs ce ≠ [] := spanChangedLines_ne_nil.mpr hov
        refine ⟨({ test_name := name, file_path := file_path, change_type := .MODIFIED, lines_changed := some (spanChangedLines changed_lines cs ce) } : TestImpact), List.mem_append.mpr (Or.inr ?_), rfl, rfl⟩
        refine List.mem_filterMap.mpr ⟨name, List.mem_filter.mpr ⟨hcur, decide_eq_true hprev⟩, ?_⟩
        rw [modifiedRecord, hlk]
        simp only [if_neg htcl]
    · intro hov imp hmem
      rcases List.mem_append.mp hmem with h | h
      · rcases List.mem_append.mp h with h | h
        · rcases List.mem_map.mp h with ⟨n, hn, rfl⟩
          rcases List.mem_filter.mp hn with ⟨_, hn2⟩
          intro he
          have he2 : n = name := he
          exact (of_decide_eq_true hn2) (he2 ▸ hprev)
        · rcases List.mem_map.mp h with ⟨n, hn, rfl⟩
          rcases List.mem_filter.mp hn with ⟨_, hn2⟩
          intro he
          have he2 : n = name := he
          exact (of_decide_eq_true hn2) (he2 ▸ hcur)
      · rcases List.mem_filterMap.mp h with ⟨n, _, hmr⟩
        rcases modifiedRecord_eq_some.mp hmr with ⟨cs2, ce2, hlk2, htcl2, himp⟩
        intro he
        have he2 : n = name := by rw [himp] at he; exact he
        subst he2
        rw [hlk] at hlk2
        simp only [Option.some.injEq, Prod.mk.injEq] at hlk2
        obtain ⟨h1, h2⟩ := hlk2
        subst h1
        subst h2
        exact hov (spanChangedLines_ne_nil.mp htcl2)
    · rw [List.filter_append, List.filter_append]
      have hA : ∀ (l : List String),
          ((l.map (fun n => ({ test_name := n, file_path := file_path, change_type := .ADDED } : TestImpact))).filter
            (fun imp => imp.test_name == name && imp.change_type == ChangeType.MODIFIED)) = [] := by
        intro l
        refine List.filter_eq_nil_iff.mpr ?_
        intro a ha hp
        rcases List.mem_map.mp ha with ⟨n, _, rfl⟩
        simp at hp
      have hR : ∀ (l : List String),
          ((l.map (fun n => ({ test_name := n, file_path := file_path, change_type := .REMOVED } : TestImpact))).filter
            (fun imp => imp.test_name == name && imp.change_type == ChangeType.MODIFIED)) = [] := by
        intro l
        refine List.filter_eq_nil_iff.mpr ?_
        intro a ha hp
        rcases List.mem_map.mp ha with ⟨n, _, rfl⟩
        simp at hp
      rw [hA, hR]
      simp only [List.nil_append, List.length_nil, Nat.zero_add]
      exact filterMap_modifiedRecord_count current_tests changed_lines file_path name _
        (List.Nodup.filter _ hc)

/-- C1 witness: one common test spanning lines 10-20 against changed line 15. -/
theorem modified_classification_witness :
    (∃ imp ∈ analyze_file_changes_core [("a", 10, 20)] [("a", 10, 18)]
        ({15} : Finset Int) "f.spec.ts" "M",
        imp.test_name = "a" ∧ imp.change_type = ChangeType.MODIFIED) ↔
      (∃ l ∈ ({15} : Finset Int), (10 : Int) ≤ l ∧ l ≤ (20 : Int)) :=
  ((modified_classification [("a", 10, 20)] [("a", 10, 18)] {15} "f.spec.ts" "a"
    (by decide)).2.2 10 20 (by decide) (by decide)).1

theorem findTestEndLoop_some_bounds :
    ∀ (ls : List (List Char)) (i : Nat) (bc : Int) (b : Bool) (r : Nat),
      findTestEndLoop ls i bc b = some r → i ≤ r ∧ r < i + ls.length := by
  intro ls
  induction ls with
  | nil => intro i bc b r h; cases h
  | cons l rest ih =>
    intro i bc b r h
    simp only [findTestEndLoop] at h
    split at h
    · rcases ih _ _ _ _ h with ⟨h1, h2⟩
      refine ⟨by omega, ?_⟩
      simp only [List.length_cons]
      omega
    · split at h
      · rcases Option.some.inj h with rfl
        refine ⟨le_refl _, ?_⟩
        simp only [List.length_cons]
        omega
      · rcases ih _ _ _ _ h with ⟨h1, h2⟩
        refine ⟨by omega, ?_⟩
        simp only [List.length_cons]
        omega

theorem find_test_end_bounds (lines : List (List Char)) (s : Nat)
    (h1 : 1 ≤ s) (h2 : s ≤ lines.length) :
    s ≤ find_test_end lines s ∧ find_test_end lines s ≤ lines.length := by
  rcases hr : findTestEndLoop (lines.drop (s - 1)) s 0 false with _ | r
  · rw [find_test_end, hr]
    exact ⟨h2, le_refl _⟩
  · rw [find_test_end, hr]
    rcases findTestEndLoop_some_bounds _ _ _ _ _ hr with ⟨hb1, hb2⟩
    rw [List.length_drop] at hb2
    simp only [Option.getD_some]
    omega

theorem dictInsert_mem {m : BlockDict} {k : String} {v : Nat × Nat} {x : String × Nat × Nat}
    (h : x ∈ dictInsert m k v) : x ∈ m ∨ x = (k, v.1, v.2) := by
  rw [dictInsert] at h
  split at h
  · rcases List.mem_map.mp h with ⟨e, he, hfe⟩
    split at hfe
    · exact Or.inr hfe.symm
    · exact Or.inl (hfe ▸ he)
  · rcases List.mem_append.mp h with h1 | h1
    · exact Or.inl h1
    · exact Or.inr (by simpa using h1)

theorem foldl_dictInsert_mem (v : Nat × Nat) (Q : String × Nat × Nat → Prop)
    (hQ : ∀ n : String, Q (n, v.1, v.2)) :
    ∀ (ns : List String) (acc : BlockDict), (∀ x ∈ acc, Q x) →
      ∀ x ∈ ns.foldl (fun a n => dictInsert a n v) acc, Q x := by
  intro ns
  induction ns with
  | nil => intro acc hacc x hx; exact hacc x hx
  | cons n t ih =>
    intro acc hacc x hx
    rw [List.foldl_cons] at hx
    refine ih _ ?_ x hx
    intro y hy
    rcases dictInsert_mem hy with h | h
    · exact hacc y h
    · rw [h]; exact hQ n

theorem extractGo_mem (names : List Char → List String)
    (findEnd : List (List Char) → Nat → Nat) (lines : List (List Char))
    (Q : String × Nat × Nat → Prop) :
    ∀ (rem : List (List Char)) (i : Nat) (acc : BlockDict),
      (∀ x ∈ acc, Q x) →
      (∀ (j : Nat) (n : String), i ≤ j → j < i + rem.length → Q (n, j, findEnd lines j)) →
      ∀ x ∈ extractGo names findEnd lines rem i acc, Q x := by
  intro rem
  induction rem with
  | nil => intro i acc hacc _ x hx; exact hacc x hx
  | cons l rest ih =>
    intro i acc hacc hrange x hx
    rw [extractGo] at hx
    refine ih (i + 1) _ ?_ ?_ x hx
    · refine foldl_dictInsert_mem _ Q (fun n => hrange i n (le_refl i) ?_) _ acc hacc
      simp only [List.length_cons]
      omega
    · intro j n hj1 hj2
      refine hrange j n (by omega) ?_
      simp only [List.length_cons]
      omega

/-- C6: every span produced by block extraction (test or function kind, over
any source text) satisfies 1 ≤ start ≤ end ≤ number of lines, with end equal
to the last line when the brace-balance scan never closes; hence 0 — the
value the diff mapper records for a deletion at the first line of a hunk
whose cursor is 1 — never lies inside an extracted span. -/
theorem extracted_spans_bounded (content : List Char) (name : String) (s e : Nat)
    (h : (name, s, e) ∈ extract_tests_with_lines content ∨
         (name, s, e) ∈ extract_functions_with_lines content) :
    1 ≤ s ∧ s ≤ e ∧ e ≤ (splitLines content).length ∧
    ¬((s : Int) ≤ 0 ∧ (0 : Int) ≤ (e : Int)) ∧
    (findTestEndLoop ((splitLines content).drop (s - 1)) s 0 false = none →
      e = (splitLines content).length) ∧
    diffChangedLines "@@ -1,2 +1,1 @@\n-x" = ({0} : Finset Int) := by
  have key : 1 ≤ s ∧ s ≤ (splitLines content).length ∧
      e = find_test_end (splitLines content) s := by
    rcases h with h | h
    · refine extractGo_mem testLineNames find_test_end (splitLines content)
        (fun x => 1 ≤ x.2.1 ∧ x.2.1 ≤ (splitLines content).length ∧
          x.2.2 = find_test_end (splitLines content) x.2.1)
        (splitLines content) 1 [] (by simp) ?_ _ h
      intro j n hj1 hj2
      refine ⟨hj1, ?_, rfl⟩
      show j ≤ (splitLines content).length
      omega
    · have h2 := extractGo_mem funcLineNames find_function_end (splitLines content)
        (fun x => 1 ≤ x.2.1 ∧ x.2.1 ≤ (splitLines content).length ∧
          x.2.2 = find_function_end (splitLines content) x.2.1)
        (splitLines content) 1 [] (by simp)
        ?_ _ h
      · have h3 : 1 ≤ s ∧ s ≤ (splitLines content).length ∧
            e = find_function_end (splitLines content) s := h2
        refine ⟨h3.1, h3.2.1, ?_⟩
        rw [h3.2.2, find_function_end, find_test_end, findEndLoops_eq]
      · intro j n hj1 hj2
        refine ⟨hj1, ?_, rfl⟩
        show j ≤ (splitLines content).length
        omega
  obtain ⟨k1, k2, k3⟩ := key
  have hb := find_test_end_bounds (splitLines content) s k1 k2
  rw [← k3] at hb
  refine ⟨k1, hb.1, hb.2, ?_, ?_, by decide⟩
  · rintro ⟨hs0, _⟩
    have hcast : (1 : Int) ≤ (s : Int) := by exact_mod_cast k1
    omega
  · intro hnone
    rw [k3, find_test_end, hnone]
    rfl

/-- C6 witness: the concrete two-line test file, whose single test spans
lines 1-2. -/
theorem extracted_spans_bounded_witness :
    (("a", 1, 2) ∈ extract_tests_with_lines wContentTest ∨
      ("a", 1, 2) ∈ extract_functions_with_lines wContentTest) ∧
    (1 ≤ 1 ∧ 1 ≤ 2 ∧ 2 ≤ (splitLines wContentTest).length ∧
     ¬((1 : Int) ≤ 0 ∧ (0 : Int) ≤ (2 : Int)) ∧
     (findTestEndLoop ((splitLines wContentTest).drop (1 - 1)) 1 0 false = none →
       2 = (splitLines wContentTest).length) ∧
     diffChangedLines "@@ -1,2 +1,1 @@\n-x" = ({0} : Finset Int)) :=
  ⟨Or.inl (by decide),
   extracted_spans_bounded wContentTest "a" 1 2 (Or.inl (by decide))⟩

theorem find?_map_replace_of_any (n : String) (v : Nat × Nat) :
    ∀ (m : BlockDict), m.any (fun e => e.1 == n) = true →
      (m.map (fun e => if e.1 == n then (n, v.1, v.2) else e)).find? (fun e => e.1 == n) =
        some (n, v.1, v.2) := by
  intro m
  induction m with
  | nil => intro h; cases h
  | cons x t ih =>
    intro h
    by_cases hx : x.1 == n
    · rw [List.map_cons, if_pos hx, List.find?_cons_of_pos _ (by simp)]
    · rw [List.map_cons, if_neg hx, List.find?_cons_of_neg _ (by simpa using hx)]
      refine ih ?_
      rw [List.any_cons] at h
      simpa [hx] using h

theorem find?_map_replace_other (nm n : String) (v : Nat × Nat) (hne : nm ≠ n) :
    ∀ (m : BlockDict),
      (m.map (fun e => if e.1 == n then (n, v.1, v.2) else e)).find? (fun e => e.1 == nm) =
        m.find? (fun e => e.1 == nm) := by
  intro m
  induction m with
  | nil => rfl
  | cons x t ih =>
    by_cases hx : x.1 == n
    · have hx2 : x.1 = n := by simpa using hx
      rw [List.map_cons, if_pos hx,
        List.find?_cons_of_neg _ (by simp [Ne.symm hne]),
        List.find?_cons_of_neg _ (by simp [hx2, Ne.symm hne])]
      exact ih
    · rw [List.map_cons, if_neg hx, List.find?_cons, List.find?_cons]
      by_cases hpx : x.1 == nm
      · simp [hpx]
      · have hb : (x.1 == nm) = false := by simpa using hpx
        rw [hb]
        exact ih

theorem dictLookup_dictInsert (nm n : String) (v : Nat × Nat) (a : BlockDict) :
    dictLookup nm (dictInsert a n v) = if nm = n then some v else dictLookup nm a := by
  by_cases hany : a.any (fun e => e.1 == n) = true
  · rw [dictInsert, if_pos hany]
    by_cases hnm : nm = n
    · subst hnm
      rw [if_pos rfl, dictLookup, find?_map_replace_of_any nm v a hany]
      rfl
    · rw [if_neg hnm, dictLookup, find?_map_replace_other nm n v hnm a, dictLookup]
  · rw [dictInsert, if_neg hany]
    have hnone : a.find? (fun e => e.1 == n) = none := by
      rw [List.find?_eq_none]
      intro x hx hpx
      exact hany (List.any_eq_true.mpr ⟨x, hx, hpx⟩)
    by_cases hnm : nm = n
    · subst hnm
      rw [if_pos rfl, dictLookup, List.find?_append, hnone, Option.none_or,
        List.find?_cons_of_pos _ (by simp)]
      rfl
    · rw [if_neg hnm, dictLookup, List.find?_append,
        show List.find? (fun e => e.1 == nm) [(n, v.1, v.2)] = none from by simp [Ne.symm hnm],
        Option.or_none, dictLookup]

theorem foldl_dictInsert_lookup (nm : String) (v : Nat × Nat) :
    ∀ (ns : List String) (acc : BlockDict),
      dictLookup nm (ns.foldl (fun a n => dictInsert a n v) acc) =
        if nm ∈ ns then some v else dictLookup nm acc := by
  intro ns
  induction ns with
  | nil => intro acc; simp
  | cons n t ih =>
    intro acc
    rw [List.foldl_cons, ih]
    by_cases ht : nm ∈ t
    · simp [ht, List.mem_cons]
    · rw [if_neg ht, dictLookup_dictInsert]
      by_cases hn : nm = n
      · simp [hn, List.mem_cons]
      · simp [hn, ht, List.mem_cons]

theorem map_replace_countKey (nm n : String) (v : Nat × Nat) :
    ∀ (m : BlockDict),
      (m.map (fun e => if e.1 == n then (n, v.1, v.2) else e)).countP (fun e => e.1 == nm) =
        m.countP (fun e => e.1 == nm) := by
  intro m
  induction m with
  | nil => rfl
  | cons x t ih =>
    rw [List.map_cons]
    by_cases hx : x.1 == n
    · have hx2 : x.1 = n := by simpa using hx
      rw [List.countP_cons, List.countP_cons, ih]
      simp [hx2]
    · rw [if_neg hx, List.countP_cons, List.countP_cons, ih]

theorem dictInsert_countKey (nm n : String) (v : Nat × Nat) (a : BlockDict)
    (h : a.countP (fun e => e.1 == nm) ≤ 1) :
    (dictInsert a n v).countP (fun e => e.1 == nm) ≤ 1 := by
  rw [dictInsert]
  by_cases hany : a.any (fun e => e.1 == n) = true
  · rw [if_pos hany, map_replace_countKey]
    exact h
  · rw [if_neg hany, List.countP_append]
    by_cases hn : (n == nm) = true
    · have hzero : a.countP (fun e => e.1 == nm) = 0 := by
        rw [List.countP_eq_zero]
        intro x hx hpx
        have h1 : x.1 = nm := by simpa using hpx
        have h2 : n = nm := by simpa using hn
        exact hany (List.any_eq_true.mpr ⟨x, hx, by simp [h1, h2]⟩)
      rw [hzero]
      simp [hn]
    · have hone : List.countP (fun e => e.1 == nm) [(n, v.1, v.2)] = 0 := by
        simp [List.countP_cons, hn]
      rw [hone]
      omega

theorem foldl_dictInsert_countKey (nm : String) (v : Nat × Nat) :
    ∀ (ns : List String) (acc : BlockDict), acc.countP (fun e => e.1 == nm) ≤ 1 →
      (ns.foldl (fun a n => dictInsert a n v) acc).countP (fun e => e.1 == nm) ≤ 1 := by
  intro ns
  induction ns with
  | nil => intro acc h; exact h
  | cons n t ih =>
    intro acc h
    rw [List.foldl_cons]
    exact ih _ (dictInsert_countKey nm n v acc h)

theorem dictLookup_some_countKey {nm : String} {m : BlockDict} {v : Nat × Nat}
    (h : dictLookup nm m = some v) : 1 ≤ m.countP (fun e => e.1 == nm) := by
  rcases Option.map_eq_some'.mp h with ⟨e, he, _⟩
  have hp := List.find?_some he
  exact List.countP_pos_iff.mpr ⟨e, List.mem_of_find?_eq_some he, hp⟩

theorem extractGo_lookup (names : List Char → List String)
    (findEnd : List (List Char) → Nat → Nat) (lines : List (List Char)) (nm : String) :
    ∀ (rem : List (List Char)) (i : Nat) (acc : BlockDict),
      dictLookup nm (extractGo names findEnd lines rem i acc) =
        match lastMatch names nm rem i with
        | some m => some (m, findEnd lines m)
        | none => dictLookup nm acc := by
  intro rem
  induction rem with
  | nil => intro i acc; rfl
  | cons l rest ih =>
    intro i acc
    rw [extractGo, ih, lastMatch]
    cases hlm : lastMatch names nm rest (i + 1) with
    | some m => rfl
    | none =>
      rw [foldl_dictInsert_lookup]
      by_cases hn : nm ∈ names l
      · simp [hn]
      · simp [hn]

theorem extractGo_countKey (names : List Char → List String)
    (findEnd : List (List Char) → Nat → Nat) (lines : List (List Char)) (nm : String) :
    ∀ (rem : List (List Char)) (i : Nat) (acc : BlockDict),
      acc.countP (fun e => e.1 == nm) ≤ 1 →
      (extractGo names findEnd lines rem i acc).countP (fun e => e.1 == nm) ≤ 1 := by
  intro rem
  induction rem with
  | nil => intro i acc h; exact h
  | cons l rest ih =>
    intro i acc h
    rw [extractGo]
    exact ih _ _ (foldl_dictInsert_countKey nm _ (names l) acc h)

theorem lastMatch_none_spec (names : List Char → List String) (nm : String) :
    ∀ (rem : List (List Char)) (i : Nat),
      lastMatch names nm rem i = none → ∀ t, t < rem.length → nm ∉ names (rem.getD t []) := by
  intro rem
  induction rem with
  | nil => intro i _ t ht; simp at ht
  | cons l rest ih =>
    intro i h t ht
    rw [lastMatch] at h
    cases hlm : lastMatch names nm rest (i + 1) with
    | some m => rw [hlm] at h; cases h
    | none =>
      rw [hlm] at h
      by_cases hn : nm ∈ names l
      · rw [if_pos hn] at h; cases h
      · cases t with
        | zero => simpa using hn
        | succ t2 =>
          have ht2 : t2 < rest.length := by
            simp only [List.length_cons] at ht
            omega
          simpa using ih (i + 1) hlm t2 ht2

theorem lastMatch_some_spec (names : List Char → List String) (nm : String) :
    ∀ (rem : List (List Char)) (i m : Nat),
      lastMatch names nm rem i = some m →
      i ≤ m ∧ m < i + rem.length ∧ nm ∈ names (rem.getD (m - i) []) ∧
        ∀ t, t < rem.length → nm ∈ names (rem.getD t []) → i + t ≤ m := by
  intro rem
  induction rem with
  | nil => intro i m h; cases h
  | cons l rest ih =>
    intro i m h
    rw [lastMatch] at h
    cases hlm : lastMatch names nm rest (i + 1) with
    | some m2 =>
      rw [hlm] at h
      have hm : m2 = m := Option.some.inj h
      subst hm
      rcases ih (i + 1) m2 hlm with ⟨h1, h2, h3, h4⟩
      refine ⟨by omega, ?_, ?_, ?_⟩
      · simp only [List.length_cons]
        omega
      · have hd : m2 - i = (m2 - (i + 1)) + 1 := by omega
        rw [hd, List.getD_cons_succ]
        exact h3
      · intro t ht hmem
        cases t with
        | zero => omega
        | succ t2 =>
          have ht2 : t2 < rest.length := by
            simp only [List.length_cons] at ht
            omega
          have := h4 t2 ht2 (by simpa using hmem)
          omega
    | none =>
      rw [hlm] at h
      by_cases hn : nm ∈ names l
      · rw [if_pos hn] at h
        have hm : i = m := Option.some.inj h
        subst hm
        refine ⟨le_refl _, ?_, by simpa, ?_⟩
        · simp only [List.length_cons]
          omega
        · intro t ht hmem
          cases t with
          | zero => omega
          | succ t2 =>
            exfalso
            have ht2 : t2 < rest.length := by
              simp only [List.length_cons] at ht
              omega
            exact lastMatch_none_spec names nm rest (i + 1) hlm t2 ht2 (by simpa using hmem)
      · rw [if_neg hn] at h; cases h

theorem extract_last_wins (names : List Char → List String)
    (findEnd : List (List Char) → Nat → Nat) (content : List Char) (name : String)
    (i : Nat) (hi1 : 1 ≤ i) (hi2 : i ≤ (splitLines content).length)
    (hocc : name ∈ names ((splitLines content).getD (i - 1) [])) :
    (extractGo names findEnd (splitLines content) (splitLines content) 1 []).countP
      (fun e => e.1 == name) = 1 ∧
    ∃ m : Nat, 1 ≤ m ∧ m ≤ (splitLines content).length ∧
      name ∈ names ((splitLines content).getD (m - 1) []) ∧
      (∀ t : Nat, 1 ≤ t → t ≤ (splitLines content).length →
        name ∈ names ((splitLines content).getD (t - 1) []) → t ≤ m) ∧
      dictLookup name (extractGo names findEnd (splitLines content) (splitLines content) 1 []) =
        some (m, findEnd (splitLines content) m) := by
  have hlk := extractGo_lookup names findEnd (splitLines content) name (splitLines content) 1 []
  cases hlm : lastMatch names name (splitLines content) 1 with
  | none =>
    exfalso
    exact lastMatch_none_spec names name (splitLines content) 1 hlm (i - 1) (by omega) hocc
  | some m =>
    rw [hlm] at hlk
    rcases lastMatch_some_spec names name (splitLines content) 1 m hlm with ⟨h1, h2, h3, h4⟩
    have hcount : (extractGo names findEnd (splitLines content) (splitLines content) 1 []).countP
        (fun e => e.1 == name) = 1 := by
      have hle := extractGo_countKey names findEnd (splitLines content) name
        (splitLines content) 1 [] (by simp)
      have hge := dictLookup_some_countKey hlk
      omega
    refine ⟨hcount, m, h1, by omega, ?_, ?_, hlk⟩
    · have hd : m - 1 = m - 1 := rfl
      exact h3
    · intro t ht1 ht2 hmem
      have := h4 (t - 1) (by omega) (by exact hmem)
      omega

/-- C7: when two blocks in the same file version share a name, the recovered
name-to-span mapping has exactly one entry for that name, and its span is the
one computed for the last (greatest-start-line) occurrence, for both test and
function extraction. -/
theorem last_wins (content : List Char) (name : String) :
    (∀ i j : Nat, 1 ≤ i → i ≤ (splitLines content).length →
      1 ≤ j → j ≤ (splitLines content).length → i ≠ j →
      name ∈ testLineNames ((splitLines content).getD (i - 1) []) →
      name ∈ testLineNames ((splitLines content).getD (j - 1) []) →
      (extract_tests_with_lines content).countP (fun e => e.1 == name) = 1 ∧
      ∃ m : Nat, 1 ≤ m ∧ m ≤ (splitLines content).length ∧
        name ∈ testLineNames ((splitLines content).getD (m - 1) []) ∧
        (∀ t : Nat, 1 ≤ t → t ≤ (splitLines content).length →
          name ∈ testLineNames ((splitLines content).getD (t - 1) []) → t ≤ m) ∧
        dictLookup name (extract_tests_with_lines content) =
          some (m, find_test_end (splitLines content) m)) ∧
    (∀ i j : Nat, 1 ≤ i → i ≤ (splitLines content).length →
      1 ≤ j → j ≤ (splitLines content).length → i ≠ j →
      name ∈ funcLineNames ((splitLines content).getD (i - 1) []) →
      name ∈ funcLineNames ((splitLines content).getD (j - 1) []) →
      (extract_functions_with_lines content).countP (fun e => e.1 == name) = 1 ∧
      ∃ m : Nat, 1 ≤ m ∧ m ≤ (splitLines content).length ∧
        name ∈ funcLineNames ((splitLines content).getD (m - 1) []) ∧
        (∀ t : Nat, 1 ≤ t → t ≤ (splitLines content).length →
          name ∈ funcLineNames ((splitLines content).getD (t - 1) []) → t ≤ m) ∧
        dictLookup name (extract_functions_with_lines content) =
          some (m, find_function_end (splitLines content) m)) := by
  constructor
  · intro i j hi1 hi2 _ _ _ hocc _
    exact extract_last_wins testLineNames find_test_end content name i hi1 hi2 hocc
  · intro i j hi1 hi2 _ _ _ hocc _
    exact extract_last_wins funcLineNames find_function_end content name i hi1 hi2 hocc

/-- C7 witness: a file with two test blocks both named "a" (lines 1 and 3)
and a file with two function blocks both named "f" (lines 1 and 3); the
mapping keeps one entry whose span starts at line 3. -/
theorem last_wins_witness :
    ((extract_tests_with_lines wContentDup).countP (fun e => e.1 == "a") = 1 ∧
     ∃ m : Nat, 1 ≤ m ∧ m ≤ (splitLines wContentDup).length ∧
       "a" ∈ testLineNames ((splitLines wContentDup).getD (m - 1) []) ∧
       (∀ t : Nat, 1 ≤ t → t ≤ (splitLines wContentDup).length →
         "a" ∈ testLineNames ((splitLines wContentDup).getD (t - 1) []) → t ≤ m) ∧
       dictLookup "a" (extract_tests_with_lines wContentDup) =
         some (m, find_test_end (splitLines wContentDup) m)) ∧
    ((extract_functions_with_lines wContentDupFn).countP (fun e => e.1 == "f") = 1 ∧
     ∃ m : Nat, 1 ≤ m ∧ m ≤ (splitLines wContentDupFn).length ∧
       "f" ∈ funcLineNames ((splitLines wContentDupFn).getD (m - 1) []) ∧
       (∀ t : Nat, 1 ≤ t → t ≤ (splitLines wContentDupFn).length →
         "f" ∈ funcLineNames ((splitLines wContentDupFn).getD (t - 1) []) → t ≤ m) ∧
       dictLookup "f" (extract_functions_with_lines wContentDupFn) =
         some (m, find_function_end (splitLines wContentDupFn) m)) :=
  ⟨(last_wins wContentDup "a").1 1 3 (by decide) (by decide) (by decide) (by decide)
      (by decide) (by decide) (by decide),
   (last_wins wContentDupFn "f").2 1 3 (by decide) (by decide) (by decide) (by decide)
      (by decide) (by decide) (by decide)⟩

theorem lastOpt_cons (prev : Option Char) (c : Char) (pre : List Char) :
    lastOpt prev (c :: pre) = lastOpt (some c) pre := by
  cases pre with
  | nil => rfl
  | cons y t =>
    rw [lastOpt, lastOpt, List.getLast?_cons_cons]
    cases hg : (y :: t).getLast? with
    | none => exact absurd (List.getLast?_eq_none_iff.mp hg) (by simp)
    | some d => simp only [hg]

theorem lastOpt_append (prev : Option Char) (a pre : List Char) (h : pre ≠ []) :
    lastOpt prev (a ++ pre) = lastOpt prev pre := by
  rw [lastOpt, lastOpt, List.getLast?_append]
  cases hg : pre.getLast? with
  | none => exact absurd (List.getLast?_eq_none_iff.mp hg) h
  | some c => rfl

/- `re.search` over a whole text succeeds exactly when the anchored match
succeeds at some split position. -/
theorem searchFrom_iff (p : Option Char → List Char → Bool) :
    ∀ (s : List Char) (prev : Option Char),
      searchFrom p prev s = true ↔
        ∃ pre suf, s = pre ++ suf ∧ p (lastOpt prev pre) suf = true := by
  intro s
  induction s with
  | nil =>
    intro prev
    rw [searchFrom]
    constructor
    · intro h
      exact ⟨[], [], rfl, h⟩
    · rintro ⟨pre, suf, heq, hp⟩
      rcases List.append_eq_nil.mp heq.symm with ⟨rfl, rfl⟩
      exact hp
  | cons c rest ih =>
    intro prev
    rw [searchFrom, Bool.or_eq_true]
    constructor
    · rintro (h | h)
      · exact ⟨[], c :: rest, rfl, h⟩
      · rcases (ih (some c)).mp h with ⟨pre, suf, heq, hp⟩
        exact ⟨c :: pre, suf, by rw [List.cons_append, heq], by rw [lastOpt_cons]; exact hp⟩
    · rintro ⟨pre, suf, heq, hp⟩
      cases pre with
      | nil =>
        left
        rw [List.nil_append] at heq
        rw [heq]
        exact hp
      | cons c2 pre2 =>
        right
        rw [List.cons_append] at heq
        rcases List.cons.inj heq with ⟨rfl, hrest⟩
        refine (ih (some c)).mpr ⟨pre2, suf, hrest, ?_⟩
        rw [lastOpt_cons] at hp
        exact hp

theorem ws_not_word (c : Char) (h : c.isWhitespace = true) : isWordChar c = false := by
  have h2 : ((c = ' ' ∨ c = '\t') ∨ c = '\x0d') ∨ c = '\n' := by
    simpa [Char.isWhitespace, Bool.or_eq_true] using h
  rcases h2 with ((rfl | rfl) | rfl) | rfl <;> decide

/- A match of the invocation pattern inside a block that sits at a line
boundary of a larger text yields a whole-word occurrence of the function name
in that text (for a nonempty name made of word characters). -/
theorem invoke_occurs_whole (f : List Char) (hf1 : f ≠ [])
    (hf2 : ∀ c ∈ f, isWordChar c = true)
    (block before after tc : List Char)
    (htc : tc = before ++ block ++ after)
    (hnl : before = [] ∨ before.getLast? = some '\n')
    (hm : usesFuncPattern f block = true) :
    wholeWordOccurs f tc = true := by
  obtain ⟨c0, f2, rfl⟩ : ∃ c0 f2, f = c0 :: f2 := by
    cases f with
    | nil => exact absurd rfl hf1
    | cons a b => exact ⟨a, b, rfl⟩
  have hc0w : isWordChar c0 = true := hf2 c0 (List.mem_cons_self _ _)
  have hcl : (c0 :: f2).getLast? = some ((c0 :: f2).getLast (by simp)) :=
    List.getLast?_eq_getLast _ _
  have hclw : isWordChar ((c0 :: f2).getLast (by simp)) = true :=
    hf2 _ (List.getLast_mem _)
  rw [usesFuncPattern, searchFrom_iff] at hm
  rcases hm with ⟨pre, suf, hsplit, hp⟩
  rw [matchInvokeAt, Bool.and_eq_true, Bool.and_eq_true] at hp
  obtain ⟨⟨hA, hB⟩, hC⟩ := hp
  rcases List.isPrefixOf_iff_prefix.mp hB with ⟨rest, hsuf⟩
  subst hsuf
  rw [List.drop_left] at hC
  have hA2 : wordness (lastOpt none pre) = false := by
    rw [List.cons_append, isBoundary] at hA
    rw [show wordness (c0 :: (f2 ++ rest)).head? = true from by simp [wordness, hc0w]] at hA
    cases hv : wordness (lastOpt none pre) with
    | false => rfl
    | true => rw [hv] at hA; simp at hA
  cases rest with
  | nil => simp [List.dropWhile] at hC
  | cons r0 rs =>
    have hr0w : isWordChar r0 = false := by
      by_cases hws : r0.isWhitespace
      · exact ws_not_word r0 hws
      · rw [List.dropWhile_cons_of_neg (by simpa using hws)] at hC
        simp only [List.head?_cons] at hC
        have : r0 = '(' ∨ r0 = '.' := by simpa [Bool.or_eq_true] using hC
        rcases this with rfl | rfl <;> decide
    rw [wholeWordOccurs, searchFrom_iff]
    refine ⟨before ++ pre, (c0 :: f2) ++ ((r0 :: rs) ++ after), ?_, ?_⟩
    · rw [htc, hsplit]
      simp [List.append_assoc]
    · rw [matchWordAt, Bool.and_eq_true, Bool.and_eq_true]
      refine ⟨⟨?_, ?_⟩, ?_⟩
      · -- boundary before the name
        rw [List.cons_append, isBoundary]
        rw [show wordness (c0 :: (f2 ++ ((r0 :: rs) ++ after))).head? = true from by
          simp [wordness, hc0w]]
        have hlast : wordness (lastOpt none (before ++ pre)) = false := by
          cases pre with
          | nil =>
            rw [List.append_nil]
            rcases hnl with rfl | hbl
            · rfl
            · rw [lastOpt, hbl]
              decide
          | cons p0 ps =>
            rw [lastOpt_append none before (p0 :: ps) (by simp)]
            exact hA2
        rw [hlast]
        rfl
      · exact List.isPrefixOf_iff_prefix.mpr ⟨(r0 :: rs) ++ after, rfl⟩
      · -- boundary after the name
        rw [List.drop_left]
        simp only [hcl]
        rw [isBoundary]
        rw [show wordness (some ((c0 :: f2).getLast (by simp))) = true from by
          simp [wordness, hclw]]
        rw [show wordness ((r0 :: rs) ++ after).head? = false from by
          simp [wordness, hr0w]]
        rfl

theorem splitLinesAux_ne_nil : ∀ (s acc : List Char), splitLinesAux s acc ≠ [] := by
  intro s
  induction s with
  | nil => intro acc; simp [splitLinesAux]
  | cons c rest ih =>
    intro acc
    rw [splitLinesAux]
    by_cases hc : c = '\n'
    · rw [if_pos hc]
      simp
    · rw [if_neg hc]
      exact ih (c :: acc)

theorem joinLines_splitLinesAux : ∀ (s acc : List Char),
    joinLines (splitLinesAux s acc) = acc.reverse ++ s := by
  intro s
  induction s with
  | nil => intro acc; simp [splitLinesAux, joinLines]
  | cons c rest ih =>
    intro acc
    rw [splitLinesAux]
    by_cases hc : c = '\n'
    · rw [if_pos hc]
      rcases hsp : splitLinesAux rest [] with _ | ⟨y, t⟩
      · exact absurd hsp (splitLinesAux_ne_nil rest [])
      · rw [joinLines, ← hsp, ih []]
        simp [hc]
    · rw [if_neg hc, ih (c :: acc)]
      simp

theorem joinLines_splitLines (s : List Char) : joinLines (splitLines s) = s := by
  rw [splitLines, joinLines_splitLinesAux]
  rfl

theorem joinLines_take : ∀ (L : List (List Char)) (k : Nat),
    ∃ after, joinLines L = joinLines (L.take k) ++ after := by
  intro L
  induction L with
  | nil => intro k; exact ⟨[], by simp [joinLines]⟩
  | cons x xs ih =>
    intro k
    cases k with
    | zero => exact ⟨joinLines (x :: xs), by simp [joinLines]⟩
    | succ j =>
      cases xs with
      | nil => exact ⟨[], by simp [joinLines]⟩
      | cons y t =>
        rcases ih j with ⟨a, ha⟩
        rcases hxj : (y :: t).take j with _ | ⟨z, u⟩
        · refine ⟨'\n' :: joinLines (y :: t), ?_⟩
          rw [show (x :: y :: t).take (j + 1) = x :: (y :: t).take j from rfl, hxj]
          rfl
        · refine ⟨a, ?_⟩
          rw [show (x :: y :: t).take (j + 1) = x :: (y :: t).take j from rfl, hxj]
          have h1 : joinLines (x :: y :: t) = x ++ '\n' :: joinLines (y :: t) := rfl
          have h2 : joinLines (x :: z :: u) = x ++ '\n' :: joinLines (z :: u) := rfl
          rw [h1, h2, ha, hxj]
          simp [List.append_assoc]

theorem joinLines_drop : ∀ (L : List (List Char)) (i : Nat), L.drop i ≠ [] →
    ∃ before, joinLines L = before ++ joinLines (L.drop i) ∧
      (before = [] ∨ before.getLast? = some '\n') := by
  intro L
  induction L with
  | nil => intro i h; simp at h
  | cons x xs ih =>
    intro i h
    cases i with
    | zero => exact ⟨[], by simp, Or.inl rfl⟩
    | succ j =>
      have hd : (x :: xs).drop (j + 1) = xs.drop j := rfl
      rw [hd] at h
      rcases ih j h with ⟨b, hb1, hb2⟩
      cases xs with
      | nil => simp at h
      | cons y t =>
        refine ⟨x ++ '\n' :: b, ?_, Or.inr ?_⟩
        · rw [hd, joinLines, hb1]
          simp [List.append_assoc]
        · rcases hb2 with rfl | hbl
          · rw [show x ++ '\n' :: ([] : List Char) = x ++ ['\n'] from rfl]
            rw [List.getLast?_concat]
          · rw [show x ++ '\n' :: b = (x ++ ['\n']) ++ b from by simp]
            rw [List.getLast?_append, hbl]
            rfl

theorem sliceBlock_infix (L : List (List Char)) (s e : Nat) (h : sliceBlock L s e ≠ []) :
    ∃ before after, joinLines L = before ++ sliceBlock L s e ++ after ∧
      (before = [] ∨ before.getLast? = some '\n') := by
  have hdrop : L.drop (s - 1) ≠ [] := by
    intro hd
    apply h
    rw [sliceBlock, hd]
    simp [joinLines]
  rcases joinLines_drop L (s - 1) hdrop with ⟨before, hb1, hb2⟩
  rcases joinLines_take (L.drop (s - 1)) (e - (s - 1)) with ⟨after, ha⟩
  refine ⟨before, after, ?_, hb2⟩
  rw [hb1, ha, sliceBlock]
  simp [List.append_assoc]

theorem flatMap_congr {α β : Type} (l : List α) (f g : α → List β)
    (h : ∀ a ∈ l, f a = g a) : l.flatMap f = l.flatMap g := by
  induction l with
  | nil => rfl
  | cons x t ih =>
    rw [List.flatMap_cons, List.flatMap_cons, h x (List.mem_cons_self _ _),
      ih (fun a ha => h a (List.mem_cons_of_mem _ ha))]

/- When the whole-file pre-filter rejects a file, no test slice of that file
matches the invocation pattern either (for word-character function names). -/
theorem prefilter_skip (functions : List String)
    (hw : ∀ f ∈ functions, f.data ≠ [] ∧ ∀ c ∈ f.data, isWordChar c = true)
    (tc : List Char)
    (hpref : (functions.any fun f => wholeWordOccurs f.data tc) = false)
    (f : String) (hf : f ∈ functions) (s e : Nat) :
    usesFuncPattern f.data (sliceBlock (splitLines tc) s e) = false := by
  cases hv : usesFuncPattern f.data (sliceBlock (splitLines tc) s e) with
  | false => rfl
  | true =>
    exfalso
    have hblock : sliceBlock (splitLines tc) s e ≠ [] := by
      intro hb
      rcases hw f hf with ⟨hf1, _⟩
      rw [hb] at hv
      rcases hd : f.data with _ | ⟨a, b⟩
      · exact hf1 hd
      · rw [hd] at hv
        simp [usesFuncPattern, searchFrom, matchInvokeAt, List.isPrefixOf] at hv
    rcases sliceBlock_infix (splitLines tc) s e hblock with ⟨before, after, hsp, hb⟩
    rw [joinLines_splitLines] at hsp
    rcases hw f hf with ⟨hf1, hf2⟩
    have hww := invoke_occurs_whole f.data hf1 hf2 _ before after tc hsp hb hv
    have hany : (functions.any fun f => wholeWordOccurs f.data tc) = true :=
      List.any_eq_true.mpr ⟨f, hf, hww⟩
    rw [hpref] at hany
    cases hany

/-- C4: in helper-usage correlation, for every test whose sliced line range
matches the pattern "changed function name, optional whitespace, then `(` or
`.`", exactly one TestImpact is emitted per matching changed function — the
output is exactly the per-match record list of §4.4 — and every record has
change_type Modified and impacted_by_helper "<helper file>:<function>".  The
hypothesis restricts the changed-function names to nonempty word-character
strings, the only shape function extraction produces. -/
theorem helper_usage_correlation (r : GitRepo) (helper_file : String)
    (functions : List String)
    (hw : ∀ f ∈ functions, f.data ≠ [] ∧ ∀ c ∈ f.data, isWordChar c = true) :
    find_tests_using_functions r helper_file functions =
      specMatchRecords r helper_file functions ∧
    ∀ rec ∈ find_tests_using_functions r helper_file functions,
      rec.change_type = ChangeType.MODIFIED ∧
      ∃ f ∈ functions, rec.impacted_by_helper = some (helper_file ++ ":" ++ f) := by
  have heq : find_tests_using_functions r helper_file functions =
      specMatchRecords r helper_file functions := by
    simp only [find_tests_using_functions, specMatchRecords]
    by_cases hfn : functions.isEmpty
    · rw [if_pos hfn]
      have hfe : functions = [] := List.isEmpty_iff.mp hfn
      subst hfe
      symm
      rw [List.flatMap_eq_nil_iff]
      intro tf _
      rw [List.flatMap_eq_nil_iff]
      intro e _
      simp
    · rw [if_neg hfn]
      refine flatMap_congr _ _ _ ?_
      intro tf _
      by_cases hraw : get_file_content r "HEAD" tf = ""
      · rw [if_pos hraw, hraw]
        rfl
      · rw [if_neg hraw]
        by_cases hpref : (functions.any fun f =>
            wholeWordOccurs f.data (normalizeNewlines (get_file_content r "HEAD" tf).data)) = true
        · rw [show (!(functions.any fun f =>
              wholeWordOccurs f.data (normalizeNewlines (get_file_content r "HEAD" tf).data))) =
              false from by rw [hpref]; rfl]
          by_cases hte : (extract_tests_with_lines
              (normalizeNewlines (get_file_content r "HEAD" tf).data)).isEmpty
          · rw [if_neg (by simp), if_pos hte, List.isEmpty_iff.mp hte]
            rfl
          · rw [if_neg (by simp), if_neg hte]
        · have hpf : (functions.any fun f =>
              wholeWordOccurs f.data (normalizeNewlines (get_file_content r "HEAD" tf).data)) = false := by
            cases hx : (functions.any fun f =>
                wholeWordOccurs f.data (normalizeNewlines (get_file_content r "HEAD" tf).data)) with
            | false => rfl
            | true => exact absurd hx hpref
          rw [show (!(functions.any fun f =>
              wholeWordOccurs f.data (normalizeNewlines (get_file_content r "HEAD" tf).data))) =
              true from by rw [hpf]; rfl]
          rw [if_pos rfl]
          symm
          rw [List.flatMap_eq_nil_iff]
          intro e _
          rw [List.map_eq_nil_iff]
          rw [List.filter_eq_nil_iff]
          intro f hf
          rw [prefilter_skip functions hw
            (normalizeNewlines (get_file_content r "HEAD" tf).data) hpf f hf e.2.1 e.2.2]
          simp
  refine ⟨heq, ?_⟩
  rw [heq]
  intro rec hrec
  simp only [specMatchRecords] at hrec
  rcases List.mem_flatMap.mp hrec with ⟨tf, _, hrec2⟩
  rcases List.mem_flatMap.mp hrec2 with ⟨e, _, hrec3⟩
  rcases List.mem_map.mp hrec3 with ⟨f, hf, rfl⟩
  exact ⟨rfl, f, (List.mem_filter.mp hf).1, rfl⟩

/-- C4 witness: a repository with one test file whose test block invokes
`computeTotal`. -/
theorem helper_usage_correlation_witness :
    (∀ f ∈ ["computeTotal"], f.data ≠ [] ∧ ∀ c ∈ f.data, isWordChar c = true) ∧
    find_tests_using_functions usesRepo "helper.ts" ["computeTotal"] =
      specMatchRecords usesRepo "helper.ts" ["computeTotal"] :=
  ⟨by decide,
   (helper_usage_correlation usesRepo "helper.ts" ["computeTotal"] (by decide)).1⟩
